import Mathlib

/-!
# Verification of the A* benchmarking harness (`src/main.cpp`)

Shallow embedding of the core of `main.cpp`: the per-run A* search loop
(lines 131–186) and the repeated-trial benchmark harness around it
(lines 122–202, the `runAStar` lambda).

Modelling conventions:
* C++ `double` costs are modelled as exact rationals `ℚ`; the
  `numeric_limits<double>::infinity()` initialisation of `dist` is modelled
  by valuing `dist` in `WithTop ℚ` (`⊤` = infinity).
* The `std::priority_queue` (min-heap on the `f` field, comparator
  `a.f > b.f`) is modelled as a list from which `popMin` extracts an entry
  of minimal `f`; the spec declares heap tie-breaking arbitrary.
* The heuristic is a parameter `h : ℕ → ℚ`, exactly as the C++ `runAStar`
  lambda receives `heuristic` as a parameter; the Euclidean instance of
  `main.cpp` is treated through its properties (consistency).
* `SearchState` carries two ghost fields, `pushedLog` (every entry ever
  pushed onto the queue) and `expandedLog` (every node popped non-stale).
  They are specification instrumentation only: the algorithm never reads
  them, and the returned metrics do not depend on them.
* Wall-clock time cannot be computed in a pure embedding; the harness is
  parametrised by a time oracle `timeOf : ℕ → ℕ` giving the nanoseconds
  measured for each run, and the harness's arithmetic on those samples is
  embedded exactly.
-/

/-- Graph data as consumed by the search (`struct GraphData`, minus the
I/O-only `name` and the `coordinates` field, which is read only through the
heuristic parameter). `adjacencyList` maps a node to its `(neighbor, weight)`
list. -/
structure GraphData where
  numNodes : ℕ
  adjacencyList : ℕ → List (ℕ × ℚ)
  startNode : ℕ
  goalNode : ℕ

/-- A working-set element (`struct State` in `main.cpp`): node index, cost
`g` from the start, and priority `f = g + h`. -/
structure Entry where
  node : ℕ
  g : ℚ
  f : ℚ
deriving DecidableEq

/-- Extract an entry with minimal `f` from the list, returning it together
with the remaining list.  This models `open.top(); open.pop()` on the C++
min-heap (comparator `CompareState`: smaller `f` has higher priority); among
equal `f` values the earliest entry is chosen, which is allowed since the
heap's tie-breaking is unspecified. -/
def popMin : List Entry → Option (Entry × List Entry)
  | [] => none
  | a :: t =>
    match popMin t with
    | none => some (a, t)
    | some (m, r) => if a.f ≤ m.f then some (a, t) else some (m, a :: r)

/-- The per-run search state of `main.cpp` lines 134–143: the open set, the
`dist` array (infinity = `⊤`), the `closed` array and the two counters; plus
two ghost fields (`pushedLog`, `expandedLog`) recording the history of
pushes and of non-stale pops, used only to state specification properties. -/
structure SearchState where
  openList : List Entry
  dist : ℕ → WithTop ℚ
  closed : ℕ → Bool
  nodesExpanded : ℕ
  steps : ℕ
  pushedLog : List Entry
  expandedLog : List ℕ

/-- State threaded through the neighbor-relaxation loop: `dist`, the open
set, and the ghost push log. -/
structure RelaxSt where
  dist : ℕ → WithTop ℚ
  q : List Entry
  log : List Entry

/-- One iteration of the neighbor loop (`main.cpp` lines 164–172): for
neighbor `(nbr, w)` of the current node, with `newG = cur.g + w`, if
`newG < dist[nbr] && !closed[nbr]` then set `dist[nbr] = newG` and push
`{nbr, newG, newG + heuristic(nbr)}`. -/
def relaxOne (h : ℕ → ℚ) (closed : ℕ → Bool) (g : ℚ) (st : RelaxSt)
    (pr : ℕ × ℚ) : RelaxSt :=
  let newG : ℚ := g + pr.2
  if (newG : WithTop ℚ) < st.dist pr.1 ∧ closed pr.1 = false then
    { dist := fun v => if v = pr.1 then (newG : WithTop ℚ) else st.dist v
      q := st.q ++ [⟨pr.1, newG, newG + h pr.1⟩]
      log := st.log ++ [⟨pr.1, newG, newG + h pr.1⟩] }
  else st

/-- The whole neighbor loop of the current node, left to right as the C++
range-for iterates over `graph.adjacencyList[cur.node]`. -/
def relaxAll (h : ℕ → ℚ) (closed : ℕ → Bool) (g : ℚ)
    (nbrs : List (ℕ × ℚ)) (st : RelaxSt) : RelaxSt :=
  nbrs.foldl (relaxOne h closed g) st

/-- Outcome of one iteration of the while loop: either the loop exits
(`done`, covering both the empty-working-set exit and the `break` on
reaching the goal) or it continues with the new state. -/
inductive StepRes where
  | done (s : SearchState)
  | cont (s : SearchState)

/-- The state carried by a `StepRes`. -/
def StepRes.state : StepRes → SearchState
  | .done s => s
  | .cont s => s

/-- One iteration of the A* while loop (`main.cpp` lines 145–173):
pop the minimum-`f` entry, count the step, discard it if stale
(`cur.g > dist[cur.node]`), otherwise count the expansion, `break` if the
goal was popped, else mark the node closed and relax its neighbors. -/
def stepA (G : GraphData) (h : ℕ → ℚ) (s : SearchState) : StepRes :=
  match popMin s.openList with
  | none => .done s
  | some (cur, rest) =>
    if s.dist cur.node < (cur.g : WithTop ℚ) then
      .cont { s with openList := rest, steps := s.steps + 1 }
    else if cur.node = G.goalNode then
      .done { s with
              openList := rest
              steps := s.steps + 1
              nodesExpanded := s.nodesExpanded + 1
              expandedLog := s.expandedLog ++ [cur.node] }
    else
      let closed2 : ℕ → Bool := fun v => if v = cur.node then true else s.closed v
      let r := relaxAll h closed2 cur.g (G.adjacencyList cur.node)
        ⟨s.dist, rest, s.pushedLog⟩
      .cont { openList := r.q
              dist := r.dist
              closed := closed2
              nodesExpanded := s.nodesExpanded + 1
              steps := s.steps + 1
              pushedLog := r.log
              expandedLog := s.expandedLog ++ [cur.node] }

/-- The state before the first loop iteration (`main.cpp` lines 134–143):
`dist[start] = 0`, all other distances infinite, the open set holding the
single entry `{start, 0.0, heuristic(start)}`, nothing closed, counters 0. -/
def initState (G : GraphData) (h : ℕ → ℚ) : SearchState :=
  { openList := [⟨G.startNode, 0, h G.startNode⟩]
    dist := fun v => if v = G.startNode then ((0 : ℚ) : WithTop ℚ) else ⊤
    closed := fun _ => false
    nodesExpanded := 0
    steps := 0
    pushedLog := [⟨G.startNode, 0, h G.startNode⟩]
    expandedLog := [] }

/-- Fuel-indexed unfolding of the while loop: `none` means the fuel ran out
before the loop exited.  `fuelBound` below is proven sufficient, so the
C++ loop (which carries no fuel) is recovered exactly. -/
def loopA (G : GraphData) (h : ℕ → ℚ) : ℕ → SearchState → Option SearchState
  | 0, _ => none
  | fuel + 1, s =>
    match stepA G h s with
    | .done s' => some s'
    | .cont s' => loopA G h fuel s'

/-- Fuel that provably suffices for the loop to exit: two more than the sum
over all nodes of (degree + 1), which bounds the total number of pops. -/
def fuelBound (G : GraphData) : ℕ :=
  2 + ((List.range G.numNodes).map
    (fun v => (G.adjacencyList v).length + 1)).sum

/-- The metrics one search run produces (the spec's
`search → {pathCost, nodesExpanded, steps}` record). -/
structure AStarResult where
  pathCost : ℚ
  nodesExpanded : ℕ
  steps : ℕ
deriving DecidableEq

/-- `pathCost` extraction (`main.cpp` line 185):
`dist[goal] != infinity ? dist[goal] : -1`. -/
def costOrSentinel : WithTop ℚ → ℚ
  | none => -1
  | some c => c

/-- One execution of the A* search (the body of one run of the `runAStar`
lambda, `main.cpp` lines 134–172 together with the path-cost extraction of
line 185). -/
def searchOnce (G : GraphData) (h : ℕ → ℚ) : AStarResult :=
  let final := (loopA G h (fuelBound G) (initState G h)).getD (initState G h)
  { pathCost := costOrSentinel (final.dist G.goalNode)
    nodesExpanded := final.nodesExpanded
    steps := final.steps }

/-- The final search state of one run (same computation as `searchOnce`,
exposing the whole state for the invariant claims). -/
def finalState (G : GraphData) (h : ℕ → ℚ) : SearchState :=
  (loopA G h (fuelBound G) (initState G h)).getD (initState G h)

/-- Modelled from the spec: the independent reference shortest-path
algorithm — "Dijkstra with zero heuristic" (§8 Correctness).  The
repository contains no separate Dijkstra implementation, so the reference
is embedded as the same engine run with the uniformly-zero heuristic, as
the spec words it. -/
def dijkstraRef (G : GraphData) : AStarResult :=
  searchOnce G (fun _ => 0)

/-! ## The benchmark harness (`runAStar`, lines 122–202) -/

/-- `NUM_RUNS` of `main.cpp` line 123. -/
def NUM_RUNS : ℕ := 100

/-- The aggregate record the harness produces: the raw accumulators and the
reported figures.  `minTimeMs` is the value printed as
"Min execution time" on line 198–199; `avgTimeMs` is the milliseconds
figure of line 197. -/
structure BenchResult where
  totalNanoseconds : ℚ
  totalNodesExpanded : ℕ
  totalSteps : ℕ
  pathCost : ℚ
  avgTimeNs : ℚ
  avgNodesExpanded : ℚ
  avgSteps : ℚ
  avgTimeMs : ℚ
  minTimeMs : ℚ

/-- Accumulator state of the benchmark loop (`main.cpp` lines 124–127). -/
structure BenchAcc where
  totalNanoseconds : ℚ
  totalNodesExpanded : ℕ
  totalSteps : ℕ
  pathCost : ℚ

/-- One iteration of the benchmark loop (`main.cpp` lines 129–187, run
index `run`): perform the search, accumulate the timed nanoseconds and the
two counters, and capture `pathCost` only when `run == 0`. -/
def benchStep (G : GraphData) (h : ℕ → ℚ) (timeOf : ℕ → ℕ)
    (acc : BenchAcc) (run : ℕ) : BenchAcc :=
  let r := searchOnce G h
  { totalNanoseconds := acc.totalNanoseconds + timeOf run
    totalNodesExpanded := acc.totalNodesExpanded + r.nodesExpanded
    totalSteps := acc.totalSteps + r.steps
    pathCost := if run = 0 then r.pathCost else acc.pathCost }

/-- The benchmark harness (the `runAStar` lambda, lines 122–202): run the
search `runs` times (the C++ constant fixes `runs = NUM_RUNS = 100`),
accumulate, then form the reported averages of lines 190–199.  `timeOf run`
is the oracle giving the nanoseconds measured for run `run`. -/
def runAStar (G : GraphData) (h : ℕ → ℚ) (timeOf : ℕ → ℕ) (runs : ℕ) :
    BenchResult :=
  let acc := (List.range runs).foldl (benchStep G h timeOf)
    ⟨0, 0, 0, 0⟩
  { totalNanoseconds := acc.totalNanoseconds
    totalNodesExpanded := acc.totalNodesExpanded
    totalSteps := acc.totalSteps
    pathCost := acc.pathCost
    avgTimeNs := acc.totalNanoseconds / runs
    avgNodesExpanded := (acc.totalNodesExpanded : ℚ) / runs
    avgSteps := (acc.totalSteps : ℚ) / runs
    avgTimeMs := (acc.totalNanoseconds / runs) / 1000000
    minTimeMs := acc.totalNanoseconds / (runs * 1000000) }

/-- The per-run results list of a benchmark invocation: the outcome of the
search executed at each run index. -/
def benchRuns (G : GraphData) (h : ℕ → ℚ) (runs : ℕ) : List AStarResult :=
  (List.range runs).map (fun _ => searchOnce G h)

/-! ## Walks and shortest-path distance (specification side) -/

/-- `IsWalk G u p v`: the step list `p` is a walk from `u` to `v` in `G`,
each step `(n, w)` using an adjacency entry `(n, w) ∈ adjacencyList` of the
node reached so far. -/
def IsWalk (G : GraphData) : ℕ → List (ℕ × ℚ) → ℕ → Prop
  | u, [], v => u = v
  | u, s :: p, v => s ∈ G.adjacencyList u ∧ IsWalk G s.1 p v

/-- Total weight of a walk. -/
def walkCost (p : List (ℕ × ℚ)) : ℚ := (p.map Prod.snd).sum

/-- `c` is the cost of a shortest walk from `startNode` to `goalNode`. -/
def IsShortestCost (G : GraphData) (c : ℚ) : Prop :=
  (∃ p, IsWalk G G.startNode p G.goalNode ∧ walkCost p = c) ∧
    ∀ p, IsWalk G G.startNode p G.goalNode → c ≤ walkCost p

/-- Minimum of the `g` values of all logged pushes for node `v` (⊤ if `v`
was never pushed). -/
def minPushed (log : List Entry) (v : ℕ) : WithTop ℚ :=
  ((log.filter (fun e => decide (e.node = v))).map
    (fun e => ((e.g : ℚ) : WithTop ℚ))).foldr min ⊤

/-- Reachability of one loop state from another by zero or more `cont`
iterations of the while loop. -/
inductive Reaches (G : GraphData) (h : ℕ → ℚ) : SearchState → SearchState → Prop
  | refl (s : SearchState) : Reaches G h s s
  | tail {s s' s'' : SearchState} :
      Reaches G h s s' → stepA G h s' = .cont s'' → Reaches G h s s''

/-! ## Basic facts about `popMin` -/

theorem popMin_eq_none {l : List Entry} (hp : popMin l = none) : l = [] := by
  cases l with
  | nil => rfl
  | cons a t =>
    exfalso
    cases ht : popMin t with
    | none => simp [popMin, ht] at hp
    | some mr => cases mr with
      | mk m r =>
        simp only [popMin, ht] at hp
        split at hp <;> simp at hp

theorem popMin_spec {l : List Entry} {e : Entry} {r : List Entry}
    (hp : popMin l = some (e, r)) :
    ∃ l1 l2, l = l1 ++ e :: l2 ∧ r = l1 ++ l2 ∧ ∀ x ∈ l, e.f ≤ x.f := by
  induction l generalizing e r with
  | nil => simp [popMin] at hp
  | cons a t ih =>
    cases ht : popMin t with
    | none =>
      have ht0 : t = [] := popMin_eq_none ht
      simp only [popMin, ht] at hp
      obtain ⟨he, hr⟩ : a = e ∧ t = r := by
        constructor <;> [exact congrArg Prod.fst (Option.some_injective _ hp);
          exact congrArg Prod.snd (Option.some_injective _ hp)]
      subst he hr ht0
      exact ⟨[], [], rfl, rfl, by intro x hx; simp at hx; subst hx; exact le_refl _⟩
    | some mr =>
      cases mr with
      | mk m r' =>
        obtain ⟨t1, t2, hts, hrs, hmin⟩ := ih ht
        simp only [popMin, ht] at hp
        by_cases haf : a.f ≤ m.f
        · rw [if_pos haf] at hp
          obtain ⟨he, hr⟩ : a = e ∧ t = r := by
            constructor <;> [exact congrArg Prod.fst (Option.some_injective _ hp);
              exact congrArg Prod.snd (Option.some_injective _ hp)]
          subst he hr
          refine ⟨[], t, rfl, rfl, ?_⟩
          intro x hx
          rcases List.mem_cons.mp hx with hx | hx
          · subst hx; exact le_refl _
          · exact le_trans haf (hmin x hx)
        · rw [if_neg haf] at hp
          obtain ⟨he, hr⟩ : m = e ∧ a :: r' = r := by
            constructor <;> [exact congrArg Prod.fst (Option.some_injective _ hp);
              exact congrArg Prod.snd (Option.some_injective _ hp)]
          subst he hr
          refine ⟨a :: t1, t2, by rw [hts]; rfl, by rw [hrs]; rfl, ?_⟩
          intro x hx
          rcases List.mem_cons.mp hx with hx | hx
          · subst hx; exact le_of_lt (lt_of_not_le haf)
          · exact hmin x hx

theorem popMin_mem {l : List Entry} {e : Entry} {r : List Entry}
    (hp : popMin l = some (e, r)) : e ∈ l := by
  obtain ⟨l1, l2, hl, -, -⟩ := popMin_spec hp
  rw [hl]; exact List.mem_append.mpr (Or.inr (List.mem_cons_self _ _))

theorem popMin_sub {l : List Entry} {e : Entry} {r : List Entry}
    (hp : popMin l = some (e, r)) : ∀ x ∈ r, x ∈ l := by
  obtain ⟨l1, l2, hl, hr, -⟩ := popMin_spec hp
  intro x hx
  rw [hl]
  rcases List.mem_append.mp (hr ▸ hx) with hx | hx
  · exact List.mem_append.mpr (Or.inl hx)
  · exact List.mem_append.mpr (Or.inr (List.mem_cons_of_mem _ hx))

theorem popMin_length {l : List Entry} {e : Entry} {r : List Entry}
    (hp : popMin l = some (e, r)) : l.length = r.length + 1 := by
  obtain ⟨l1, l2, hl, hr, -⟩ := popMin_spec hp
  subst hl hr
  simp [List.length_append]
  omega

theorem popMin_sublist {l : List Entry} {e : Entry} {r : List Entry}
    (hp : popMin l = some (e, r)) : r.Sublist l := by
  obtain ⟨l1, l2, hl, hr, -⟩ := popMin_spec hp
  subst hl hr
  exact List.Sublist.append_left (List.sublist_cons_self _ _) l1

theorem popMin_mem_rest {l : List Entry} {e : Entry} {r : List Entry}
    (hp : popMin l = some (e, r)) : ∀ x ∈ l, x ≠ e → x ∈ r := by
  obtain ⟨l1, l2, hl, hr, -⟩ := popMin_spec hp
  subst hl hr
  intro x hx hne
  rcases List.mem_append.mp hx with hx | hx
  · exact List.mem_append.mpr (Or.inl hx)
  · rcases List.mem_cons.mp hx with hx | hx
    · exact absurd hx hne
    · exact List.mem_append.mpr (Or.inr hx)

/-- The pairwise "same node ⇒ different g" relation on queue entries. -/
def NodeDistinct (l : List Entry) : Prop :=
  l.Pairwise (fun a b => a.node = b.node → a.g ≠ b.g)

theorem popMin_distinct {l : List Entry} {e : Entry} {r : List Entry}
    (hC : NodeDistinct l) (hp : popMin l = some (e, r)) :
    ∀ x ∈ r, x.node = e.node → x.g ≠ e.g := by
  obtain ⟨l1, l2, hl, hr, -⟩ := popMin_spec hp
  subst hl hr
  unfold NodeDistinct at hC
  rw [List.pairwise_append] at hC
  obtain ⟨h1, h2, h12⟩ := hC
  rw [List.pairwise_cons] at h2
  intro x hx
  rcases List.mem_append.mp hx with hx | hx
  · exact h12 x hx e (List.mem_cons_self _ _)
  · intro hn hg
    exact h2.1 x hx hn.symm hg.symm

/-! ## Loader-contract hypotheses (spec §3, §6) -/

/-- The loader contract on indices: the start node and every adjacency
target of an in-range node are in `[0, numNodes)`. -/
def InRange (G : GraphData) : Prop :=
  G.startNode < G.numNodes ∧
    ∀ u < G.numNodes, ∀ pr ∈ G.adjacencyList u, pr.1 < G.numNodes

/-- Non-negative edge weights (spec §3). -/
def NonnegWeights (G : GraphData) : Prop :=
  ∀ u < G.numNodes, ∀ pr ∈ G.adjacencyList u, 0 ≤ pr.2

/-- Consistency of the heuristic over the graph's edges (spec glossary:
triangle inequality across edges). -/
def ConsistentH (G : GraphData) (h : ℕ → ℚ) : Prop :=
  ∀ u < G.numNodes, ∀ pr ∈ G.adjacencyList u, h u ≤ pr.2 + h pr.1

/-! ## The loop invariants -/

/-- Structural invariant of the while loop, independent of any weight or
heuristic hypothesis (beyond the loader's index contract). -/
structure Inv1 (G : GraphData) (h : ℕ → ℚ) (s : SearchState) : Prop where
  hA : ∀ e ∈ s.openList, s.dist e.node ≤ (e.g : WithTop ℚ)
  hB : ∀ e ∈ s.openList, s.closed e.node = true → s.dist e.node < (e.g : WithTop ℚ)
  hC : NodeDistinct s.openList
  hL : ∀ v (dv : ℚ), s.dist v = (dv : WithTop ℚ) → s.closed v = false →
    ∃ e ∈ s.openList, e.node = v ∧ e.g = dv
  hR : ∀ e ∈ s.openList, e.node < G.numNodes
  hQL : ∀ e ∈ s.openList, e ∈ s.pushedLog
  hE : ∀ v (c : ℚ), s.dist v = (c : WithTop ℚ) →
    ∃ p, IsWalk G G.startNode p v ∧ walkCost p = c
  hDlog : ∀ e ∈ s.pushedLog,
    (∃ p, IsWalk G G.startNode p e.node ∧ walkCost p = e.g) ∧ e.f = e.g + h e.node
  hM : ∀ v, s.dist v = minPushed s.pushedLog v
  hCount : s.nodesExpanded = s.expandedLog.length
  hNodup : s.expandedLog.Nodup
  hXC : ∀ v ∈ s.expandedLog, s.closed v = true
  hXR : ∀ v ∈ s.expandedLog, v < G.numNodes
  hSteps : s.nodesExpanded ≤ s.steps
  hPop : s.openList.length + s.steps = s.pushedLog.length
  hPushBound : s.pushedLog.length ≤
    1 + (s.expandedLog.map (fun v => (G.adjacencyList v).length)).sum
  hGoalOpen : s.closed G.goalNode = false
  hT : ∃ d0 : ℚ, s.dist G.startNode = (d0 : WithTop ℚ) ∧ d0 ≤ 0

/-- Shortest-path invariant on top of `Inv1`, available once edge weights
are non-negative and the heuristic is consistent:
`hF` — a closed node's recorded distance under-approximates every walk to it
(so it is the exact shortest-walk cost, by `hE`);
`hH` — every edge out of a closed node has been relaxed. -/
structure Inv2 (G : GraphData) (h : ℕ → ℚ) (s : SearchState) extends Inv1 G h s : Prop where
  hF : ∀ v, s.closed v = true → ∀ p, IsWalk G G.startNode p v →
    s.dist v ≤ ((walkCost p : ℚ) : WithTop ℚ)
  hH : ∀ u, s.closed u = true → ∀ pr ∈ G.adjacencyList u,
    s.dist pr.1 ≤ s.dist u + (pr.2 : WithTop ℚ)

/-! ## Walk lemmas -/

theorem walkCost_nil : walkCost [] = 0 := rfl

theorem walkCost_cons (s : ℕ × ℚ) (p : List (ℕ × ℚ)) :
    walkCost (s :: p) = s.2 + walkCost p := by
  simp [walkCost]

theorem walkCost_append (p q : List (ℕ × ℚ)) :
    walkCost (p ++ q) = walkCost p + walkCost q := by
  simp [walkCost]

theorem IsWalk.trans {G : GraphData} {u v w : ℕ} {p q : List (ℕ × ℚ)}
    (hp : IsWalk G u p v) (hq : IsWalk G v q w) : IsWalk G u (p ++ q) w := by
  induction p generalizing u with
  | nil => cases hp; simpa using hq
  | cons s t ih =>
    obtain ⟨hs, ht⟩ := hp
    exact ⟨hs, ih ht⟩

theorem IsWalk.single {G : GraphData} {u : ℕ} {pr : ℕ × ℚ}
    (hpr : pr ∈ G.adjacencyList u) : IsWalk G u [pr] pr.1 :=
  ⟨hpr, rfl⟩

theorem IsWalk.snoc {G : GraphData} {u v : ℕ} {p : List (ℕ × ℚ)} {pr : ℕ × ℚ}
    (hp : IsWalk G u p v) (hpr : pr ∈ G.adjacencyList v) :
    IsWalk G u (p ++ [pr]) pr.1 :=
  hp.trans (IsWalk.single hpr)

theorem IsWalk.end_lt {G : GraphData} (hG : InRange G) {u v : ℕ}
    {p : List (ℕ × ℚ)} (hu : u < G.numNodes) (hp : IsWalk G u p v) :
    v < G.numNodes := by
  induction p generalizing u with
  | nil => cases hp; exact hu
  | cons s t ih =>
    obtain ⟨hs, ht⟩ := hp
    exact ih (hG.2 u hu s hs) ht

/-- Telescoped consistency: along any walk, the heuristic drops by at most
the walk's cost. -/
theorem consistent_along_walk {G : GraphData} {h : ℕ → ℚ}
    (hG : InRange G) (hc : ConsistentH G h) {u v : ℕ} {p : List (ℕ × ℚ)}
    (hu : u < G.numNodes) (hp : IsWalk G u p v) :
    h u ≤ walkCost p + h v := by
  induction p generalizing u with
  | nil => cases hp; simp [walkCost]
  | cons s t ih =>
    obtain ⟨hs, ht⟩ := hp
    have h1 : h u ≤ s.2 + h s.1 := hc u hu s hs
    have h2 : h s.1 ≤ walkCost t + h v := ih (hG.2 u hu s hs) ht
    rw [walkCost_cons]
    linarith

theorem walkCost_nonneg {G : GraphData} (hG : InRange G) (hw : NonnegWeights G)
    {u v : ℕ} {p : List (ℕ × ℚ)} (hu : u < G.numNodes) (hp : IsWalk G u p v) :
    0 ≤ walkCost p := by
  induction p generalizing u with
  | nil => simp [walkCost]
  | cons s t ih =>
    obtain ⟨hs, ht⟩ := hp
    have h1 : 0 ≤ s.2 := hw u hu s hs
    have h2 : 0 ≤ walkCost t := ih (hG.2 u hu s hs) ht
    rw [walkCost_cons]
    linarith

/-! ## `minPushed` lemmas -/

theorem foldr_min_append (l1 l2 : List (WithTop ℚ)) :
    (l1 ++ l2).foldr min ⊤ = min (l1.foldr min ⊤) (l2.foldr min ⊤) := by
  induction l1 with
  | nil => simp
  | cons x t ih => simp [ih, min_assoc]

theorem minPushed_append (log news : List Entry) (v : ℕ) :
    minPushed (log ++ news) v = min (minPushed log v) (minPushed news v) := by
  unfold minPushed
  rw [List.filter_append, List.map_append, foldr_min_append]

theorem minPushed_single (e : Entry) (v : ℕ) :
    minPushed [e] v = if e.node = v then (e.g : WithTop ℚ) else ⊤ := by
  unfold minPushed
  by_cases hv : e.node = v
  · simp [hv]
  · simp [hv]

/-! ## Invariants through the neighbor-relaxation loop -/

/-- The queue/`dist` invariants threaded through the relaxation fold, for a
fixed closed set. -/
structure RInv (closed2 : ℕ → Bool) (st : RelaxSt) : Prop where
  rA : ∀ e ∈ st.q, st.dist e.node ≤ (e.g : WithTop ℚ)
  rB : ∀ e ∈ st.q, closed2 e.node = true → st.dist e.node < (e.g : WithTop ℚ)
  rC : NodeDistinct st.q
  rL : ∀ v (dv : ℚ), st.dist v = (dv : WithTop ℚ) → closed2 v = false →
    ∃ e ∈ st.q, e.node = v ∧ e.g = dv
  rM : ∀ v, st.dist v = minPushed st.log v
  rQL : ∀ e ∈ st.q, e ∈ st.log

theorem relaxOne_rinv {h : ℕ → ℚ} {closed2 : ℕ → Bool} {g : ℚ}
    {st : RelaxSt} (hi : RInv closed2 st) (pr : ℕ × ℚ) :
    RInv closed2 (relaxOne h closed2 g st pr) := by
  unfold relaxOne
  by_cases hg : ((g + pr.2 : ℚ) : WithTop ℚ) < st.dist pr.1 ∧ closed2 pr.1 = false
  · rw [if_pos hg]
    obtain ⟨hlt, hop⟩ := hg
    set newG : ℚ := g + pr.2 with hnewG
    set en : Entry := ⟨pr.1, newG, newG + h pr.1⟩ with hen
    constructor
    · intro e he
      rcases List.mem_append.mp he with he | he
      · show (if e.node = pr.1 then (newG : WithTop ℚ) else st.dist e.node) ≤ _
        by_cases hv : e.node = pr.1
        · rw [if_pos hv]
          exact le_of_lt (lt_of_lt_of_le (hv ▸ hlt) (hi.rA e he))
        · rw [if_neg hv]; exact hi.rA e he
      · rcases List.mem_singleton.mp he with rfl
        show (if en.node = pr.1 then (newG : WithTop ℚ) else st.dist en.node) ≤ _
        rw [if_pos rfl]
    · intro e he hcl
      rcases List.mem_append.mp he with he | he
      · have hv : e.node ≠ pr.1 := fun hv => by rw [hv, hop] at hcl; exact Bool.false_ne_true hcl
        show (if e.node = pr.1 then (newG : WithTop ℚ) else st.dist e.node) < _
        rw [if_neg hv]; exact hi.rB e he hcl
      · rcases List.mem_singleton.mp he with rfl
        rw [hop] at hcl; exact absurd hcl Bool.false_ne_true
    · unfold NodeDistinct
      rw [List.pairwise_append]
      refine ⟨hi.rC, List.pairwise_singleton _ _, ?_⟩
      intro a ha b hb hnode
      rcases List.mem_singleton.mp hb with rfl
      have h1 : st.dist a.node ≤ (a.g : WithTop ℚ) := hi.rA a ha
      have h2 : (newG : WithTop ℚ) < (a.g : WithTop ℚ) :=
        lt_of_lt_of_le (hnode ▸ hlt) h1
      exact fun hgg => absurd (hgg ▸ h2) (lt_irrefl _)
    · intro v dv hdv hvop
      have h0 : (if v = pr.1 then (newG : WithTop ℚ) else st.dist v) = (dv : WithTop ℚ) := hdv
      by_cases hv : v = pr.1
      · rw [if_pos hv] at h0
        exact ⟨en, List.mem_append.mpr (Or.inr (List.mem_singleton.mpr rfl)), hv.symm,
          WithTop.coe_injective h0⟩
      · rw [if_neg hv] at h0
        obtain ⟨e, he, hn, hg⟩ := hi.rL v dv h0 hvop
        exact ⟨e, List.mem_append.mpr (Or.inl he), hn, hg⟩
    · intro v
      show (if v = pr.1 then (newG : WithTop ℚ) else st.dist v) = minPushed (st.log ++ [en]) v
      rw [minPushed_append, minPushed_single]
      by_cases hv : v = pr.1
      · rw [if_pos hv, if_pos (show en.node = v from hv.symm), ← hi.rM v, hv]
        exact (min_eq_right (le_of_lt hlt)).symm
      · rw [if_neg hv, if_neg (show ¬ en.node = v from fun hh => hv hh.symm), ← hi.rM v]
        exact (min_eq_left le_top).symm
    · intro e he
      rcases List.mem_append.mp he with he | he
      · exact List.mem_append.mpr (Or.inl (hi.rQL e he))
      · exact List.mem_append.mpr (Or.inr he)
  · rw [if_neg hg]; exact hi

theorem relaxAll_rinv {h : ℕ → ℚ} {closed2 : ℕ → Bool} {g : ℚ}
    (nbrs : List (ℕ × ℚ)) {st : RelaxSt} (hi : RInv closed2 st) :
    RInv closed2 (relaxAll h closed2 g nbrs st) := by
  induction nbrs generalizing st with
  | nil => exact hi
  | cons a t ih => exact ih (relaxOne_rinv hi a)

/-- What the relaxation of a neighbor list `nbrs` (with current cost `g`)
does to the fold state: it appends a block of new entries to both the queue
and the push log (each recording a `g + w` relaxation of some neighbor that
was not closed), lowers `dist` pointwise, leaves closed nodes' distances
unchanged, and leaves every neighbor either closed or with
`dist ≤ g + w`. -/
structure RFacts (h : ℕ → ℚ) (closed2 : ℕ → Bool) (g : ℚ)
    (nbrs : List (ℕ × ℚ)) (st st' : RelaxSt) : Prop where
  hnews : ∃ news, st'.q = st.q ++ news ∧ st'.log = st.log ++ news ∧
    news.length ≤ nbrs.length ∧
    ∀ e ∈ news, (∃ w, (e.node, w) ∈ nbrs ∧ e.g = g + w) ∧
      e.f = e.g + h e.node ∧ closed2 e.node = false
  dmono : ∀ v, st'.dist v ≤ st.dist v
  dclosed : ∀ v, closed2 v = true → st'.dist v = st.dist v
  drelax : ∀ pr ∈ nbrs, closed2 pr.1 = true ∨
    st'.dist pr.1 ≤ ((g + pr.2 : ℚ) : WithTop ℚ)
  dnew : ∀ v, st'.dist v = st.dist v ∨
    ∃ w, (v, w) ∈ nbrs ∧ st'.dist v = ((g + w : ℚ) : WithTop ℚ)

theorem relaxOne_facts (h : ℕ → ℚ) (closed2 : ℕ → Bool) (g : ℚ)
    (st : RelaxSt) (pr : ℕ × ℚ) :
    RFacts h closed2 g [pr] st (relaxOne h closed2 g st pr) := by
  unfold relaxOne
  by_cases hg : ((g + pr.2 : ℚ) : WithTop ℚ) < st.dist pr.1 ∧ closed2 pr.1 = false
  · rw [if_pos hg]
    obtain ⟨hlt, hop⟩ := hg
    constructor
    · refine ⟨[⟨pr.1, g + pr.2, g + pr.2 + h pr.1⟩], rfl, rfl, by simp, ?_⟩
      intro e he
      rcases List.mem_singleton.mp he with rfl
      exact ⟨⟨pr.2, by simp, rfl⟩, rfl, hop⟩
    · intro v
      show (if v = pr.1 then _ else st.dist v) ≤ st.dist v
      by_cases hv : v = pr.1
      · rw [if_pos hv]; exact le_of_lt (hv ▸ hlt)
      · rw [if_neg hv]
    · intro v hcv
      have hv : v ≠ pr.1 := fun hv => by rw [hv, hop] at hcv; exact Bool.false_ne_true hcv
      show (if v = pr.1 then _ else st.dist v) = st.dist v
      rw [if_neg hv]
    · intro q hq
      rcases List.mem_singleton.mp hq with rfl
      right
      show (if q.1 = q.1 then ((g + q.2 : ℚ) : WithTop ℚ) else st.dist q.1) ≤ _
      rw [if_pos rfl]
    · intro v
      show (if v = pr.1 then ((g + pr.2 : ℚ) : WithTop ℚ) else st.dist v) = st.dist v ∨ _
      by_cases hv : v = pr.1
      · right
        refine ⟨pr.2, by simp [hv], ?_⟩
        show (if v = pr.1 then ((g + pr.2 : ℚ) : WithTop ℚ) else st.dist v) = _
        rw [if_pos hv]
      · left; rw [if_neg hv]
  · rw [if_neg hg]
    refine ⟨⟨[], by simp, by simp, by simp, by simp⟩, fun v => le_refl _,
      fun v _ => rfl, ?_, fun v => Or.inl rfl⟩
    intro q hq
    rcases List.mem_singleton.mp hq with rfl
    by_cases hcv : closed2 q.1 = true
    · exact Or.inl hcv
    · right
      have hnl : ¬ ((g + q.2 : ℚ) : WithTop ℚ) < st.dist q.1 :=
        fun hl => hg ⟨hl, Bool.not_eq_true _ ▸ hcv⟩
      exact not_lt.mp hnl

theorem RFacts.comp {h : ℕ → ℚ} {closed2 : ℕ → Bool} {g : ℚ}
    {l1 l2 : List (ℕ × ℚ)} {st st1 st2 : RelaxSt}
    (f1 : RFacts h closed2 g l1 st st1) (f2 : RFacts h closed2 g l2 st1 st2) :
    RFacts h closed2 g (l1 ++ l2) st st2 := by
  constructor
  · obtain ⟨n1, hq1, hl1, hlen1, hp1⟩ := f1.hnews
    obtain ⟨n2, hq2, hl2, hlen2, hp2⟩ := f2.hnews
    refine ⟨n1 ++ n2, by rw [hq2, hq1, List.append_assoc],
      by rw [hl2, hl1, List.append_assoc], by simp; omega, ?_⟩
    intro e he
    rcases List.mem_append.mp he with he | he
    · obtain ⟨⟨w, hw, hgw⟩, hf, hcl⟩ := hp1 e he
      exact ⟨⟨w, List.mem_append.mpr (Or.inl hw), hgw⟩, hf, hcl⟩
    · obtain ⟨⟨w, hw, hgw⟩, hf, hcl⟩ := hp2 e he
      exact ⟨⟨w, List.mem_append.mpr (Or.inr hw), hgw⟩, hf, hcl⟩
  · exact fun v => le_trans (f2.dmono v) (f1.dmono v)
  · exact fun v hv => (f2.dclosed v hv).trans (f1.dclosed v hv)
  · intro pr hpr
    rcases List.mem_append.mp hpr with hpr | hpr
    · rcases f1.drelax pr hpr with hcl | hle
      · exact Or.inl hcl
      · exact Or.inr (le_trans (f2.dmono pr.1) hle)
    · exact f2.drelax pr hpr
  · intro v
    rcases f2.dnew v with h2 | ⟨w, hw, hval⟩
    · rcases f1.dnew v with h1 | ⟨w, hw, hval⟩
      · exact Or.inl (h2.trans h1)
      · exact Or.inr ⟨w, List.mem_append.mpr (Or.inl hw), h2.trans hval⟩
    · exact Or.inr ⟨w, List.mem_append.mpr (Or.inr hw), hval⟩

theorem relaxAll_facts (h : ℕ → ℚ) (closed2 : ℕ → Bool) (g : ℚ)
    (nbrs : List (ℕ × ℚ)) (st : RelaxSt) :
    RFacts h closed2 g nbrs st (relaxAll h closed2 g nbrs st) := by
  induction nbrs generalizing st with
  | nil =>
    exact ⟨⟨[], by simp [relaxAll], by simp [relaxAll], by simp, by simp⟩,
      fun v => le_refl _, fun v _ => rfl, by simp, fun v => Or.inl rfl⟩
  | cons a t ih =>
    have hstep : RFacts h closed2 g [a] st (relaxOne h closed2 g st a) :=
      relaxOne_facts h closed2 g st a
    have := hstep.comp (ih (relaxOne h closed2 g st a))
    simpa using this

/-! ## Branch characterizations of one loop iteration -/

theorem stepA_of_none {G : GraphData} {h : ℕ → ℚ} {s : SearchState}
    (hp : popMin s.openList = none) : stepA G h s = .done s := by
  unfold stepA; rw [hp]

theorem stepA_of_stale {G : GraphData} {h : ℕ → ℚ} {s : SearchState}
    {cur : Entry} {rest : List Entry}
    (hp : popMin s.openList = some (cur, rest))
    (hst : s.dist cur.node < (cur.g : WithTop ℚ)) :
    stepA G h s = .cont { s with openList := rest, steps := s.steps + 1 } := by
  unfold stepA; rw [hp]; exact if_pos hst

theorem stepA_of_goal {G : GraphData} {h : ℕ → ℚ} {s : SearchState}
    {cur : Entry} {rest : List Entry}
    (hp : popMin s.openList = some (cur, rest))
    (hst : ¬ s.dist cur.node < (cur.g : WithTop ℚ))
    (hgl : cur.node = G.goalNode) :
    stepA G h s = .done { s with
      openList := rest
      steps := s.steps + 1
      nodesExpanded := s.nodesExpanded + 1
      expandedLog := s.expandedLog ++ [cur.node] } := by
  unfold stepA; rw [hp]; exact (if_neg hst).trans (if_pos hgl)

theorem stepA_of_expand {G : GraphData} {h : ℕ → ℚ} {s : SearchState}
    {cur : Entry} {rest : List Entry}
    (hp : popMin s.openList = some (cur, rest))
    (hst : ¬ s.dist cur.node < (cur.g : WithTop ℚ))
    (hgl : ¬ cur.node = G.goalNode) :
    stepA G h s =
      .cont { openList := (relaxAll h (fun v => if v = cur.node then true else s.closed v)
                cur.g (G.adjacencyList cur.node) ⟨s.dist, rest, s.pushedLog⟩).q
              dist := (relaxAll h (fun v => if v = cur.node then true else s.closed v)
                cur.g (G.adjacencyList cur.node) ⟨s.dist, rest, s.pushedLog⟩).dist
              closed := fun v => if v = cur.node then true else s.closed v
              nodesExpanded := s.nodesExpanded + 1
              steps := s.steps + 1
              pushedLog := (relaxAll h (fun v => if v = cur.node then true else s.closed v)
                cur.g (G.adjacencyList cur.node) ⟨s.dist, rest, s.pushedLog⟩).log
              expandedLog := s.expandedLog ++ [cur.node] } := by
  unfold stepA; rw [hp]; exact (if_neg hst).trans (if_neg hgl)

/-! ## Facts about a non-stale pop -/

theorem nonstale_dist_eq {G : GraphData} {h : ℕ → ℚ} {s : SearchState}
    {cur : Entry} {rest : List Entry} (hi : Inv1 G h s)
    (hp : popMin s.openList = some (cur, rest))
    (hst : ¬ s.dist cur.node < (cur.g : WithTop ℚ)) :
    s.dist cur.node = (cur.g : WithTop ℚ) :=
  le_antisymm (hi.hA cur (popMin_mem hp)) (not_lt.mp hst)

theorem nonstale_unclosed {G : GraphData} {h : ℕ → ℚ} {s : SearchState}
    {cur : Entry} {rest : List Entry} (hi : Inv1 G h s)
    (hp : popMin s.openList = some (cur, rest))
    (hst : ¬ s.dist cur.node < (cur.g : WithTop ℚ)) :
    s.closed cur.node = false := by
  cases hc : s.closed cur.node with
  | false => rfl
  | true => exact absurd (hi.hB cur (popMin_mem hp) hc) hst

/-! ## `Inv1` preservation -/

theorem inv1_stale {G : GraphData} {h : ℕ → ℚ} {s : SearchState}
    {cur : Entry} {rest : List Entry} (hi : Inv1 G h s)
    (hp : popMin s.openList = some (cur, rest))
    (hst : s.dist cur.node < (cur.g : WithTop ℚ)) :
    Inv1 G h { s with openList := rest, steps := s.steps + 1 } := by
  have hsub := popMin_sub hp
  constructor
  · exact fun e he => hi.hA e (hsub e he)
  · exact fun e he => hi.hB e (hsub e he)
  · exact List.Pairwise.sublist (popMin_sublist hp) hi.hC
  · intro v dv hdv hop
    obtain ⟨e, he, hn, hg⟩ := hi.hL v dv hdv hop
    have hne : e ≠ cur := by
      intro hecur
      subst hecur
      rw [hn] at hst
      rw [hdv] at hst
      rw [hg] at hst
      exact lt_irrefl _ hst
    exact ⟨e, popMin_mem_rest hp e he hne, hn, hg⟩
  · exact fun e he => hi.hR e (hsub e he)
  · exact fun e he => hi.hQL e (hsub e he)
  · exact hi.hE
  · exact hi.hDlog
  · exact hi.hM
  · exact hi.hCount
  · exact hi.hNodup
  · exact hi.hXC
  · exact hi.hXR
  · exact Nat.le_succ_of_le hi.hSteps
  · show rest.length + (s.steps + 1) = s.pushedLog.length
    have := popMin_length hp
    have := hi.hPop
    omega
  · exact hi.hPushBound
  · exact hi.hGoalOpen
  · exact hi.hT

theorem rinv0_expand {G : GraphData} {h : ℕ → ℚ} {s : SearchState}
    {cur : Entry} {rest : List Entry} (hi : Inv1 G h s)
    (hp : popMin s.openList = some (cur, rest))
    (hst : ¬ s.dist cur.node < (cur.g : WithTop ℚ)) :
    RInv (fun v => if v = cur.node then true else s.closed v)
      ⟨s.dist, rest, s.pushedLog⟩ := by
  have hsub := popMin_sub hp
  have hcd := nonstale_dist_eq hi hp hst
  constructor
  · exact fun e he => hi.hA e (hsub e he)
  · intro e he hcl
    by_cases heq : e.node = cur.node
    · have hne : e.g ≠ cur.g := popMin_distinct hi.hC hp e he heq
      have h1 : (cur.g : WithTop ℚ) ≤ (e.g : WithTop ℚ) := by
        have := hi.hA e (hsub e he)
        rw [heq, hcd] at this
        exact this
      have h2 : cur.g < e.g :=
        lt_of_le_of_ne (WithTop.coe_le_coe.mp h1) (Ne.symm hne)
      show s.dist e.node < (e.g : WithTop ℚ)
      rw [heq, hcd]
      exact WithTop.coe_lt_coe.mpr h2
    · have : s.closed e.node = true := by
        have h0 : (if e.node = cur.node then true else s.closed e.node) = true := hcl
        rwa [if_neg heq] at h0
      exact hi.hB e (hsub e he) this
  · exact List.Pairwise.sublist (popMin_sublist hp) hi.hC
  · intro v dv hdv hop
    have h0 : (if v = cur.node then true else s.closed v) = false := hop
    by_cases hv : v = cur.node
    · rw [if_pos hv] at h0; exact Bool.noConfusion h0
    · rw [if_neg hv] at h0
      obtain ⟨e, he, hn, hg⟩ := hi.hL v dv hdv h0
      have hne : e ≠ cur := fun hecur => hv (by rw [← hn, hecur])
      exact ⟨e, popMin_mem_rest hp e he hne, hn, hg⟩
  · exact hi.hM
  · exact fun e he => hi.hQL e (hsub e he)

theorem inv1_expand {G : GraphData} {h : ℕ → ℚ} {s : SearchState}
    {cur : Entry} {rest : List Entry} (hG : InRange G) (hi : Inv1 G h s)
    (hp : popMin s.openList = some (cur, rest))
    (hst : ¬ s.dist cur.node < (cur.g : WithTop ℚ))
    (hgl : ¬ cur.node = G.goalNode) :
    Inv1 G h
      { openList := (relaxAll h (fun v => if v = cur.node then true else s.closed v)
          cur.g (G.adjacencyList cur.node) ⟨s.dist, rest, s.pushedLog⟩).q
        dist := (relaxAll h (fun v => if v = cur.node then true else s.closed v)
          cur.g (G.adjacencyList cur.node) ⟨s.dist, rest, s.pushedLog⟩).dist
        closed := fun v => if v = cur.node then true else s.closed v
        nodesExpanded := s.nodesExpanded + 1
        steps := s.steps + 1
        pushedLog := (relaxAll h (fun v => if v = cur.node then true else s.closed v)
          cur.g (G.adjacencyList cur.node) ⟨s.dist, rest, s.pushedLog⟩).log
        expandedLog := s.expandedLog ++ [cur.node] } := by
  have hsub := popMin_sub hp
  have hcd := nonstale_dist_eq hi hp hst
  have hcc := nonstale_unclosed hi hp hst
  have hcurN : cur.node < G.numNodes := hi.hR cur (popMin_mem hp)
  obtain ⟨pw, hpw, hpwc⟩ := hi.hE cur.node cur.g hcd
  have rinv' := relaxAll_rinv (h := h) (g := cur.g) (G.adjacencyList cur.node)
    (rinv0_expand hi hp hst)
  have rf := relaxAll_facts h (fun v => if v = cur.node then true else s.closed v)
    cur.g (G.adjacencyList cur.node) ⟨s.dist, rest, s.pushedLog⟩
  obtain ⟨news, hq, hlog, hlen, hprops⟩ := rf.hnews
  have hq' : (relaxAll h (fun v => if v = cur.node then true else s.closed v)
      cur.g (G.adjacencyList cur.node) ⟨s.dist, rest, s.pushedLog⟩).q = rest ++ news := hq
  have hlog' : (relaxAll h (fun v => if v = cur.node then true else s.closed v)
      cur.g (G.adjacencyList cur.node) ⟨s.dist, rest, s.pushedLog⟩).log =
      s.pushedLog ++ news := hlog
  constructor
  · exact rinv'.rA
  · exact rinv'.rB
  · exact rinv'.rC
  · exact rinv'.rL
  · intro e he
    rw [hq'] at he
    rcases List.mem_append.mp he with he | he
    · exact hi.hR e (hsub e he)
    · obtain ⟨⟨w, hwmem, -⟩, -, -⟩ := hprops e he
      exact hG.2 cur.node hcurN (e.node, w) hwmem
  · exact rinv'.rQL
  · intro v c hvc
    rcases rf.dnew v with hdv | ⟨w, hwmem, hval⟩
    · exact hi.hE v c (hdv.symm.trans hvc)
    · have hc : c = cur.g + w := (WithTop.coe_injective (hval.symm.trans hvc)).symm
      refine ⟨pw ++ [(v, w)], IsWalk.snoc hpw hwmem, ?_⟩
      rw [walkCost_append, hpwc, hc, walkCost_cons, walkCost_nil]
      ring
  · intro e he
    rw [hlog'] at he
    rcases List.mem_append.mp he with he | he
    · exact hi.hDlog e he
    · obtain ⟨⟨w, hwmem, hgw⟩, hf, -⟩ := hprops e he
      refine ⟨⟨pw ++ [(e.node, w)], IsWalk.snoc hpw hwmem, ?_⟩, hf⟩
      rw [walkCost_append, hpwc, hgw, walkCost_cons, walkCost_nil]
      ring
  · exact rinv'.rM
  · show s.nodesExpanded + 1 = (s.expandedLog ++ [cur.node]).length
    rw [List.length_append, hi.hCount]
    rfl
  · refine List.Nodup.append hi.hNodup (List.nodup_singleton _) ?_
    intro a ha hb
    rw [List.mem_singleton.mp hb] at ha
    rw [hi.hXC cur.node ha] at hcc
    exact Bool.noConfusion hcc
  · intro v hv
    show (if v = cur.node then true else s.closed v) = true
    by_cases hvc : v = cur.node
    · rw [if_pos hvc]
    · rw [if_neg hvc]
      rcases List.mem_append.mp hv with hv | hv
      · exact hi.hXC v hv
      · exact absurd (List.mem_singleton.mp hv) hvc
  · intro v hv
    rcases List.mem_append.mp hv with hv | hv
    · exact hi.hXR v hv
    · rcases List.mem_singleton.mp hv with rfl
      exact hcurN
  · exact Nat.succ_le_succ hi.hSteps
  · show (relaxAll h (fun v => if v = cur.node then true else s.closed v)
        cur.g (G.adjacencyList cur.node) ⟨s.dist, rest, s.pushedLog⟩).q.length +
        (s.steps + 1) =
      (relaxAll h (fun v => if v = cur.node then true else s.closed v)
        cur.g (G.adjacencyList cur.node) ⟨s.dist, rest, s.pushedLog⟩).log.length
    rw [hq', hlog', List.length_append, List.length_append]
    have h1 := popMin_length hp
    have h2 := hi.hPop
    omega
  · show (relaxAll h (fun v => if v = cur.node then true else s.closed v)
        cur.g (G.adjacencyList cur.node) ⟨s.dist, rest, s.pushedLog⟩).log.length ≤
      1 + ((s.expandedLog ++ [cur.node]).map (fun v => (G.adjacencyList v).length)).sum
    rw [hlog', List.length_append, List.map_append, List.sum_append]
    have h2 := hi.hPushBound
    simp only [List.map_cons, List.map_nil, List.sum_cons, List.sum_nil]
    omega
  · show (if G.goalNode = cur.node then true else s.closed G.goalNode) = false
    rw [if_neg (fun hh => hgl hh.symm)]
    exact hi.hGoalOpen
  · obtain ⟨d0, hd0, hle⟩ := hi.hT
    rcases rf.dnew G.startNode with hdv | ⟨w, hwmem, hval⟩
    · exact ⟨d0, hdv.trans hd0, hle⟩
    · refine ⟨cur.g + w, hval, ?_⟩
      have hm : (relaxAll h (fun v => if v = cur.node then true else s.closed v)
          cur.g (G.adjacencyList cur.node) ⟨s.dist, rest, s.pushedLog⟩).dist G.startNode ≤
          s.dist G.startNode := rf.dmono G.startNode
      rw [hval, hd0] at hm
      exact le_trans (WithTop.coe_le_coe.mp hm) hle

theorem inv1_step {G : GraphData} {h : ℕ → ℚ} {s s' : SearchState}
    (hG : InRange G) (hi : Inv1 G h s) (hc : stepA G h s = .cont s') :
    Inv1 G h s' := by
  cases hpm : popMin s.openList with
  | none => rw [stepA_of_none hpm] at hc; exact StepRes.noConfusion hc
  | some pr =>
    cases pr with
    | mk cur rest =>
      by_cases hst : s.dist cur.node < (cur.g : WithTop ℚ)
      · rw [stepA_of_stale hpm hst] at hc
        cases hc
        exact inv1_stale hi hpm hst
      · by_cases hgl : cur.node = G.goalNode
        · rw [stepA_of_goal hpm hst hgl] at hc
          exact StepRes.noConfusion hc
        · rw [stepA_of_expand hpm hst hgl] at hc
          cases hc
          exact inv1_expand hG hi hpm hst hgl

theorem inv1_init {G : GraphData} {h : ℕ → ℚ} (hG : InRange G) :
    Inv1 G h (initState G h) := by
  constructor
  · intro e he
    rcases List.mem_singleton.mp he with rfl
    show (if G.startNode = G.startNode then ((0 : ℚ) : WithTop ℚ) else ⊤) ≤ _
    rw [if_pos rfl]
  · intro e he hcl
    exact Bool.noConfusion hcl
  · exact List.pairwise_singleton _ _
  · intro v dv hdv hop
    have h0 : (if v = G.startNode then ((0 : ℚ) : WithTop ℚ) else ⊤) = (dv : WithTop ℚ) := hdv
    by_cases hv : v = G.startNode
    · rw [if_pos hv] at h0
      exact ⟨⟨G.startNode, 0, h G.startNode⟩, List.mem_singleton.mpr rfl, hv.symm,
        WithTop.coe_injective h0⟩
    · rw [if_neg hv] at h0
      exact absurd h0.symm (WithTop.coe_ne_top)
  · intro e he
    rcases List.mem_singleton.mp he with rfl
    exact hG.1
  · intro e he
    rcases List.mem_singleton.mp he with rfl
    exact List.mem_singleton.mpr rfl
  · intro v c hvc
    have h0 : (if v = G.startNode then ((0 : ℚ) : WithTop ℚ) else ⊤) = (c : WithTop ℚ) := hvc
    by_cases hv : v = G.startNode
    · rw [if_pos hv] at h0
      refine ⟨[], hv.symm, ?_⟩
      rw [walkCost_nil]
      exact WithTop.coe_injective h0
    · rw [if_neg hv] at h0
      exact absurd h0.symm (WithTop.coe_ne_top)
  · intro e he
    rcases List.mem_singleton.mp he with rfl
    exact ⟨⟨[], rfl, walkCost_nil⟩, (zero_add _).symm⟩
  · intro v
    show (if v = G.startNode then ((0 : ℚ) : WithTop ℚ) else ⊤) =
      minPushed [⟨G.startNode, 0, h G.startNode⟩] v
    rw [minPushed_single]
    by_cases hv : v = G.startNode
    · rw [if_pos hv, if_pos hv.symm]
    · rw [if_neg hv, if_neg (fun hh => hv hh.symm)]
  · rfl
  · exact List.nodup_nil
  · intro v hv; exact absurd hv (List.not_mem_nil v)
  · intro v hv; exact absurd hv (List.not_mem_nil v)
  · exact Nat.le_refl 0
  · rfl
  · exact Nat.le_refl 1
  · rfl
  · refine ⟨0, ?_, le_refl 0⟩
    show (if G.startNode = G.startNode then ((0 : ℚ) : WithTop ℚ) else ⊤) = ((0 : ℚ) : WithTop ℚ)
    rw [if_pos rfl]

theorem Reaches.trans' {G : GraphData} {h : ℕ → ℚ} {a b c : SearchState}
    (h1 : Reaches G h a b) (h2 : Reaches G h b c) : Reaches G h a c := by
  induction h2 with
  | refl => exact h1
  | tail hr hs ih => exact Reaches.tail ih hs

theorem inv1_of_reaches {G : GraphData} {h : ℕ → ℚ} {s s' : SearchState}
    (hG : InRange G) (hi : Inv1 G h s) (hr : Reaches G h s s') : Inv1 G h s' := by
  induction hr with
  | refl => exact hi
  | tail hr hs ih => exact inv1_step hG ih hs

/-! ## Termination of the while loop -/

/-- Ranking function for the while loop: queue length plus, for every
not-yet-closed node, its degree plus one. -/
def stepMeasure (G : GraphData) (s : SearchState) : ℕ :=
  s.openList.length +
    ((Finset.range G.numNodes).filter (fun v => s.closed v = false)).sum
      (fun v => (G.adjacencyList v).length + 1)

theorem measure_decreases {G : GraphData} {h : ℕ → ℚ} {s s' : SearchState}
    (hG : InRange G) (hi : Inv1 G h s) (hc : stepA G h s = .cont s') :
    stepMeasure G s' < stepMeasure G s := by
  cases hpm : popMin s.openList with
  | none => rw [stepA_of_none hpm] at hc; exact StepRes.noConfusion hc
  | some pr =>
    cases pr with
    | mk cur rest =>
      have hlen := popMin_length hpm
      by_cases hst : s.dist cur.node < (cur.g : WithTop ℚ)
      · rw [stepA_of_stale hpm hst] at hc
        cases hc
        show rest.length +
            ((Finset.range G.numNodes).filter (fun v => s.closed v = false)).sum
              (fun v => (G.adjacencyList v).length + 1) <
          s.openList.length +
            ((Finset.range G.numNodes).filter (fun v => s.closed v = false)).sum
              (fun v => (G.adjacencyList v).length + 1)
        omega
      · by_cases hgl : cur.node = G.goalNode
        · rw [stepA_of_goal hpm hst hgl] at hc
          exact StepRes.noConfusion hc
        · rw [stepA_of_expand hpm hst hgl] at hc
          cases hc
          have hcc := nonstale_unclosed hi hpm hst
          have hcurN : cur.node < G.numNodes := hi.hR cur (popMin_mem hpm)
          have rf := relaxAll_facts h
            (fun v => if v = cur.node then true else s.closed v)
            cur.g (G.adjacencyList cur.node) ⟨s.dist, rest, s.pushedLog⟩
          obtain ⟨news, hq, -, hnlen, -⟩ := rf.hnews
          have hq' : (relaxAll h (fun v => if v = cur.node then true else s.closed v)
              cur.g (G.adjacencyList cur.node) ⟨s.dist, rest, s.pushedLog⟩).q =
              rest ++ news := hq
          have hmem : cur.node ∈
              (Finset.range G.numNodes).filter (fun v => s.closed v = false) := by
            rw [Finset.mem_filter, Finset.mem_range]
            exact ⟨hcurN, hcc⟩
          have hferase :
              (Finset.range G.numNodes).filter
                (fun v => (if v = cur.node then true else s.closed v) = false) =
              ((Finset.range G.numNodes).filter (fun v => s.closed v = false)).erase
                cur.node := by
            ext v
            by_cases hv : v = cur.node <;>
              simp [Finset.mem_filter, Finset.mem_erase, hv]
          have hsum := Finset.sum_erase_add
            ((Finset.range G.numNodes).filter (fun v => s.closed v = false))
            (fun v => (G.adjacencyList v).length + 1) hmem
          show (relaxAll h (fun v => if v = cur.node then true else s.closed v)
              cur.g (G.adjacencyList cur.node) ⟨s.dist, rest, s.pushedLog⟩).q.length +
              ((Finset.range G.numNodes).filter
                (fun v => (if v = cur.node then true else s.closed v) = false)).sum
                (fun v => (G.adjacencyList v).length + 1) <
            s.openList.length +
              ((Finset.range G.numNodes).filter (fun v => s.closed v = false)).sum
                (fun v => (G.adjacencyList v).length + 1)
          rw [hq', hferase, List.length_append]
          have hsum' : (((Finset.range G.numNodes).filter
              (fun v => s.closed v = false)).erase cur.node).sum
              (fun v => (G.adjacencyList v).length + 1) +
              ((G.adjacencyList cur.node).length + 1) =
              ((Finset.range G.numNodes).filter (fun v => s.closed v = false)).sum
                (fun v => (G.adjacencyList v).length + 1) := hsum
          omega

theorem loopA_terminates {G : GraphData} {h : ℕ → ℚ} (hG : InRange G) :
    ∀ (n : ℕ) (s : SearchState), Inv1 G h s → stepMeasure G s < n →
      ∃ out, loopA G h n s = some out ∧
        ∃ s', Reaches G h s s' ∧ stepA G h s' = .done out := by
  intro n
  induction n with
  | zero => intro s _ hm; exact absurd hm (Nat.not_lt_zero _)
  | succ n ih =>
    intro s hi hm
    cases hs : stepA G h s with
    | done out =>
      refine ⟨out, ?_, s, Reaches.refl s, hs⟩
      show (match stepA G h s with
        | .done s' => some s'
        | .cont s' => loopA G h n s') = some out
      rw [hs]
    | cont s'' =>
      have hi'' := inv1_step hG hi hs
      have hm'' : stepMeasure G s'' < n :=
        Nat.lt_of_lt_of_le (measure_decreases hG hi hs) (Nat.lt_succ_iff.mp hm)
      obtain ⟨out, hloop, s', hr, hdone⟩ := ih s'' hi'' hm''
      refine ⟨out, ?_, s', Reaches.trans' (Reaches.tail (Reaches.refl s) hs) hr, hdone⟩
      show (match stepA G h s with
        | .done s' => some s'
        | .cont s' => loopA G h n s') = some out
      rw [hs]
      exact hloop

theorem measure_init_lt {G : GraphData} (h : ℕ → ℚ) :
    stepMeasure G (initState G h) < fuelBound G := by
  show 1 + ((Finset.range G.numNodes).filter (fun v => false = false)).sum
      (fun v => (G.adjacencyList v).length + 1) <
    2 + ((List.range G.numNodes).map (fun v => (G.adjacencyList v).length + 1)).sum
  have hfe : (Finset.range G.numNodes).filter (fun v => false = false) =
      Finset.range G.numNodes := by
    apply Finset.filter_true_of_mem
    intro x _
    rfl
  rw [hfe]
  have hbridge : (Finset.range G.numNodes).sum
      (fun v => (G.adjacencyList v).length + 1) =
      ((List.range G.numNodes).map (fun v => (G.adjacencyList v).length + 1)).sum := rfl
  rw [hbridge]
  omega

/-- The loop, run with `fuelBound` fuel from the initial state, exits on its
own: this is the terminating execution of the C++ while loop. -/
theorem searchOnce_run {G : GraphData} (h : ℕ → ℚ) (hG : InRange G) :
    ∃ final, loopA G h (fuelBound G) (initState G h) = some final ∧
      (∃ s', Reaches G h (initState G h) s' ∧ stepA G h s' = .done final) ∧
      searchOnce G h = { pathCost := costOrSentinel (final.dist G.goalNode)
                         nodesExpanded := final.nodesExpanded
                         steps := final.steps } ∧
      finalState G h = final := by
  obtain ⟨out, hloop, hreach⟩ :=
    loopA_terminates hG (fuelBound G) (initState G h) (inv1_init hG)
      (measure_init_lt h)
  refine ⟨out, hloop, hreach, ?_, ?_⟩
  · unfold searchOnce
    rw [hloop]
    rfl
  · unfold finalState
    rw [hloop]
    rfl

/-! ## The frontier-coverage lemma and the shortest-path invariant -/

/-- Any walk from a finitely-distanced node to an unclosed node is covered
by some open entry: an entry whose own distance plus a remaining walk
undercuts the walk's total cost.  This is the standard frontier argument,
done by induction along the walk using `hL` (open witness for unclosed
nodes) and `hH` (closed nodes are fully relaxed). -/
theorem frontier_cover {G : GraphData} {h : ℕ → ℚ} {s : SearchState}
    (hi : Inv1 G h s)
    (hH : ∀ u, s.closed u = true → ∀ pr ∈ G.adjacencyList u,
      s.dist pr.1 ≤ s.dist u + (pr.2 : WithTop ℚ)) :
    ∀ (p : List (ℕ × ℚ)) (m t : ℕ) (dm : ℚ), IsWalk G m p t →
      s.closed t = false → s.dist m = (dm : WithTop ℚ) →
      ∃ e ∈ s.openList, ∃ rk, IsWalk G e.node rk t ∧
        e.g + walkCost rk ≤ dm + walkCost p := by
  intro p
  induction p with
  | nil =>
    intro m t dm hwalk hct hdm
    have hmt : m = t := hwalk
    subst hmt
    obtain ⟨e, he, hn, hg⟩ := hi.hL m dm hdm hct
    refine ⟨e, he, [], hn, ?_⟩
    rw [hg]
  | cons a p' ih =>
    intro m t dm hwalk hct hdm
    obtain ⟨ha, hw'⟩ := hwalk
    cases hm : s.closed m with
    | false =>
      obtain ⟨e, he, hn, hg⟩ := hi.hL m dm hdm hm
      refine ⟨e, he, a :: p', ?_, ?_⟩
      · rw [hn]; exact ⟨ha, hw'⟩
      · rw [hg]
    | true =>
      have hrel : s.dist a.1 ≤ ((dm + a.2 : ℚ) : WithTop ℚ) := by
        have := hH m hm a ha
        rw [hdm] at this
        rw [WithTop.coe_add]
        exact this
      cases hda : s.dist a.1 with
      | top =>
        rw [hda] at hrel
        exact absurd (top_le_iff.mp hrel) WithTop.coe_ne_top
      | coe dv =>
        rw [hda] at hrel
        have hdv : dv ≤ dm + a.2 := WithTop.coe_le_coe.mp hrel
        obtain ⟨e, he, rk, hrk, hle⟩ := ih a.1 t dv hw' hct hda
        refine ⟨e, he, rk, hrk, ?_⟩
        rw [walkCost_cons]
        linarith

theorem inv2_init {G : GraphData} {h : ℕ → ℚ} (hG : InRange G) :
    Inv2 G h (initState G h) := by
  refine ⟨inv1_init hG, ?_, ?_⟩
  · intro v hv
    exact Bool.noConfusion hv
  · intro u hu
    exact Bool.noConfusion hu

/-- When a node is popped non-stale with minimal `f`, its `g` value
under-approximates the cost of every walk from the start to it (the A*
optimality argument: frontier coverage, the min-`f` choice, and the
consistency telescope). -/
theorem popped_g_le_walk {G : GraphData} {h : ℕ → ℚ} {s : SearchState}
    {cur : Entry} {rest : List Entry}
    (hG : InRange G) (hcons : ConsistentH G h) (hi : Inv2 G h s)
    (hp : popMin s.openList = some (cur, rest))
    (hst : ¬ s.dist cur.node < (cur.g : WithTop ℚ)) :
    ∀ p, IsWalk G G.startNode p cur.node → cur.g ≤ walkCost p := by
  intro p hwalk
  have hcc := nonstale_unclosed hi.toInv1 hp hst
  obtain ⟨d0, hd0, hle0⟩ := hi.hT
  obtain ⟨e, he, rk, hrk, hle⟩ :=
    frontier_cover hi.toInv1 hi.hH p G.startNode cur.node d0 hwalk hcc hd0
  obtain ⟨-, -, -, -, hmin⟩ := popMin_spec hp
  have hcf : cur.f = cur.g + h cur.node :=
    (hi.hDlog cur (hi.hQL cur (popMin_mem hp))).2
  have hef : e.f = e.g + h e.node := (hi.hDlog e (hi.hQL e he)).2
  have htel : h e.node ≤ walkCost rk + h cur.node :=
    consistent_along_walk hG hcons (hi.hR e he) hrk
  have hfle : cur.f ≤ e.f := hmin e he
  rw [hcf, hef] at hfle
  linarith

theorem inv2_step {G : GraphData} {h : ℕ → ℚ} {s s' : SearchState}
    (hG : InRange G) (hw : NonnegWeights G) (hcons : ConsistentH G h)
    (hi : Inv2 G h s) (hc : stepA G h s = .cont s') : Inv2 G h s' := by
  cases hpm : popMin s.openList with
  | none => rw [stepA_of_none hpm] at hc; exact StepRes.noConfusion hc
  | some pr =>
    cases pr with
    | mk cur rest =>
      by_cases hst : s.dist cur.node < (cur.g : WithTop ℚ)
      · rw [stepA_of_stale hpm hst] at hc
        cases hc
        exact ⟨inv1_stale hi.toInv1 hpm hst, hi.hF, hi.hH⟩
      · by_cases hgl : cur.node = G.goalNode
        · rw [stepA_of_goal hpm hst hgl] at hc
          exact StepRes.noConfusion hc
        · rw [stepA_of_expand hpm hst hgl] at hc
          cases hc
          have hcd := nonstale_dist_eq hi.toInv1 hpm hst
          have hcc := nonstale_unclosed hi.toInv1 hpm hst
          have hcurN : cur.node < G.numNodes := hi.hR cur (popMin_mem hpm)
          obtain ⟨pw, hpw, hpwc⟩ := hi.hE cur.node cur.g hcd
          have hgw := popped_g_le_walk hG hcons hi hpm hst
          have rf := relaxAll_facts h
            (fun v => if v = cur.node then true else s.closed v)
            cur.g (G.adjacencyList cur.node) ⟨s.dist, rest, s.pushedLog⟩
          have hdcur : (relaxAll h (fun v => if v = cur.node then true else s.closed v)
              cur.g (G.adjacencyList cur.node) ⟨s.dist, rest, s.pushedLog⟩).dist
              cur.node = (cur.g : WithTop ℚ) := by
            have := rf.dclosed cur.node (by rw [if_pos rfl])
            exact this.trans hcd
          have hFnew : ∀ v, (if v = cur.node then true else s.closed v) = true →
              ∀ p, IsWalk G G.startNode p v →
              (relaxAll h (fun v => if v = cur.node then true else s.closed v)
                cur.g (G.adjacencyList cur.node) ⟨s.dist, rest, s.pushedLog⟩).dist v ≤
                ((walkCost p : ℚ) : WithTop ℚ) := by
            intro v hv p hpwalk
            by_cases hvc : v = cur.node
            · subst hvc
              rw [hdcur]
              exact WithTop.coe_le_coe.mpr (hgw p hpwalk)
            · rw [if_neg hvc] at hv
              have := hi.hF v hv p hpwalk
              have hd := rf.dclosed v (by rw [if_neg hvc]; exact hv)
              rw [hd]
              exact this
          refine ⟨inv1_expand hG hi.toInv1 hpm hst hgl, hFnew, ?_⟩
          · show ∀ u, (if u = cur.node then true else s.closed u) = true →
              ∀ pr ∈ G.adjacencyList u,
                (relaxAll h (fun v => if v = cur.node then true else s.closed v)
                  cur.g (G.adjacencyList cur.node) ⟨s.dist, rest, s.pushedLog⟩).dist pr.1 ≤
                (relaxAll h (fun v => if v = cur.node then true else s.closed v)
                  cur.g (G.adjacencyList cur.node) ⟨s.dist, rest, s.pushedLog⟩).dist u +
                  (pr.2 : WithTop ℚ)
            intro u hu pr hpr
            by_cases huc : u = cur.node
            · subst huc
              rcases rf.drelax pr hpr with hclpr | hle
              · have hwalkpr : IsWalk G G.startNode (pw ++ [pr]) pr.1 :=
                  IsWalk.snoc hpw hpr
                have hcost : walkCost (pw ++ [pr]) = cur.g + pr.2 := by
                  rw [walkCost_append, hpwc, walkCost_cons, walkCost_nil]
                  ring
                have := hFnew pr.1 hclpr (pw ++ [pr]) hwalkpr
                rw [hcost] at this
                rw [hdcur, ← WithTop.coe_add]
                exact this
              · rw [hdcur, ← WithTop.coe_add]
                exact hle
            · rw [if_neg huc] at hu
              have hdu := rf.dclosed u (by rw [if_neg huc]; exact hu)
              rw [hdu]
              exact le_trans (rf.dmono pr.1) (hi.hH u hu pr hpr)

theorem inv2_of_reaches {G : GraphData} {h : ℕ → ℚ} {s s' : SearchState}
    (hG : InRange G) (hw : NonnegWeights G) (hcons : ConsistentH G h)
    (hi : Inv2 G h s) (hr : Reaches G h s s') : Inv2 G h s' := by
  induction hr with
  | refl => exact hi
  | tail hr hs ih => exact inv2_step hG hw hcons ih hs

/-! ## Facts at loop exit -/

theorem nodup_length_le {l : List ℕ} {N : ℕ} (hn : l.Nodup)
    (hlt : ∀ v ∈ l, v < N) : l.length ≤ N := by
  have h1 : l.toFinset ⊆ Finset.range N := by
    intro v hv
    rw [Finset.mem_range]
    exact hlt v (List.mem_toFinset.mp hv)
  have h2 := Finset.card_le_card h1
  rw [List.toFinset_card_of_nodup hn, Finset.card_range] at h2
  exact h2

theorem nodup_map_sum_le {l : List ℕ} {N : ℕ} (f : ℕ → ℕ) (hn : l.Nodup)
    (hlt : ∀ v ∈ l, v < N) :
    (l.map f).sum ≤ ((List.range N).map f).sum := by
  have h1 : l.toFinset ⊆ Finset.range N := by
    intro v hv
    rw [Finset.mem_range]
    exact hlt v (List.mem_toFinset.mp hv)
  have h2 : l.toFinset.sum f ≤ (Finset.range N).sum f :=
    Finset.sum_le_sum_of_subset h1
  rw [List.sum_toFinset f hn] at h2
  have h3 : (Finset.range N).sum f = ((List.range N).map f).sum := rfl
  rw [h3] at h2
  exact h2

/-- Counting and bookkeeping facts that hold at the state in which the
while loop exits (by either exit path). -/
theorem done_facts {G : GraphData} {h : ℕ → ℚ} {s out : SearchState}
    (hi : Inv1 G h s) (hd : stepA G h s = .done out) :
    out.nodesExpanded = out.expandedLog.length ∧
    out.expandedLog.Nodup ∧
    (∀ v ∈ out.expandedLog, v < G.numNodes) ∧
    out.nodesExpanded ≤ out.steps ∧
    out.pushedLog.length ≤
      1 + (out.expandedLog.map (fun v => (G.adjacencyList v).length)).sum ∧
    out.openList.length + out.steps = out.pushedLog.length ∧
    out.pushedLog = s.pushedLog := by
  cases hpm : popMin s.openList with
  | none =>
    rw [stepA_of_none hpm] at hd
    cases hd
    exact ⟨hi.hCount, hi.hNodup, hi.hXR, hi.hSteps, hi.hPushBound, hi.hPop, rfl⟩
  | some pr =>
    cases pr with
    | mk cur rest =>
      by_cases hst : s.dist cur.node < (cur.g : WithTop ℚ)
      · rw [stepA_of_stale hpm hst] at hd
        exact StepRes.noConfusion hd
      · by_cases hgl : cur.node = G.goalNode
        · rw [stepA_of_goal hpm hst hgl] at hd
          cases hd
          have hcc := nonstale_unclosed hi hpm hst
          have hcurN : cur.node < G.numNodes := hi.hR cur (popMin_mem hpm)
          refine ⟨?_, ?_, ?_, ?_, ?_, ?_, rfl⟩
          · show s.nodesExpanded + 1 = (s.expandedLog ++ [cur.node]).length
            rw [List.length_append, hi.hCount]
            rfl
          · refine List.Nodup.append hi.hNodup (List.nodup_singleton _) ?_
            intro a ha hb
            rw [List.mem_singleton.mp hb] at ha
            rw [hi.hXC cur.node ha] at hcc
            exact Bool.noConfusion hcc
          · intro v hv
            rcases List.mem_append.mp hv with hv | hv
            · exact hi.hXR v hv
            · rcases List.mem_singleton.mp hv with rfl
              exact hcurN
          · exact Nat.succ_le_succ hi.hSteps
          · show s.pushedLog.length ≤
              1 + ((s.expandedLog ++ [cur.node]).map
                (fun v => (G.adjacencyList v).length)).sum
            rw [List.map_append, List.sum_append]
            have := hi.hPushBound
            omega
          · show rest.length + (s.steps + 1) = s.pushedLog.length
            have h1 := popMin_length hpm
            have h2 := hi.hPop
            omega
        · rw [stepA_of_expand hpm hst hgl] at hd
          exact StepRes.noConfusion hd

/-! ## Outcome of one search -/

theorem IsShortestCost_unique {G : GraphData} {c1 c2 : ℚ}
    (h1 : IsShortestCost G c1) (h2 : IsShortestCost G c2) : c1 = c2 := by
  obtain ⟨⟨p1, hp1, hc1⟩, hmin1⟩ := h1
  obtain ⟨⟨p2, hp2, hc2⟩, hmin2⟩ := h2
  have ha := hmin1 p2 hp2
  have hb := hmin2 p1 hp1
  rw [hc1] at hb
  rw [hc2] at ha
  exact le_antisymm ha hb

/-- With in-range indices, a consistent heuristic and a reachable goal, one
run of the search returns the cost of a shortest walk from start to goal. -/
theorem searchOnce_shortest {G : GraphData} {h : ℕ → ℚ}
    (hG : InRange G) (hw : NonnegWeights G) (hcons : ConsistentH G h)
    (hreach : ∃ p, IsWalk G G.startNode p G.goalNode) :
    IsShortestCost G (searchOnce G h).pathCost := by
  obtain ⟨final, hloop, ⟨s', hr, hdone⟩, hsearch, -⟩ := searchOnce_run h hG
  have hi2 : Inv2 G h s' := inv2_of_reaches hG hw hcons (inv2_init hG) hr
  cases hpm : popMin s'.openList with
  | none =>
    exfalso
    obtain ⟨p, hp⟩ := hreach
    obtain ⟨d0, hd0, -⟩ := hi2.hT
    obtain ⟨e, he, -⟩ := frontier_cover hi2.toInv1 hi2.hH p G.startNode
      G.goalNode d0 hp hi2.hGoalOpen hd0
    rw [popMin_eq_none hpm] at he
    exact List.not_mem_nil e he
  | some pr =>
    cases pr with
    | mk cur rest =>
      by_cases hst : s'.dist cur.node < (cur.g : WithTop ℚ)
      · rw [stepA_of_stale hpm hst] at hdone
        exact StepRes.noConfusion hdone
      · by_cases hgl : cur.node = G.goalNode
        · rw [stepA_of_goal hpm hst hgl] at hdone
          have hfinal : { s' with
              openList := rest
              steps := s'.steps + 1
              nodesExpanded := s'.nodesExpanded + 1
              expandedLog := s'.expandedLog ++ [cur.node] } = final :=
            StepRes.done.inj hdone
          have hcd := nonstale_dist_eq hi2.toInv1 hpm hst
          have hdg : s'.dist G.goalNode = (cur.g : WithTop ℚ) := by
            rw [← hgl]; exact hcd
          have hdfg : final.dist G.goalNode = (cur.g : WithTop ℚ) := by
            rw [← hfinal]; exact hdg
          rw [hsearch]
          show IsShortestCost G (costOrSentinel (final.dist G.goalNode))
          rw [hdfg]
          show IsShortestCost G cur.g
          constructor
          · exact hi2.hE G.goalNode cur.g hdg
          · intro p hp
            exact popped_g_le_walk hG hcons hi2 hpm hst p (by rw [hgl]; exact hp)
        · rw [stepA_of_expand hpm hst hgl] at hdone
          exact StepRes.noConfusion hdone

/-- With an unreachable goal the loop drains the working set (exiting with
an empty queue), never pushes any entry for the goal node, and reports the
`-1` sentinel path cost. -/
theorem searchOnce_unreachable_facts {G : GraphData} (h : ℕ → ℚ)
    (hG : InRange G)
    (hunreach : ¬ ∃ p, IsWalk G G.startNode p G.goalNode) :
    (finalState G h).openList = [] ∧ (searchOnce G h).pathCost = -1 ∧
      ∀ e ∈ (finalState G h).pushedLog, e.node ≠ G.goalNode := by
  obtain ⟨final, hloop, ⟨s', hr, hdone⟩, hsearch, hfin⟩ := searchOnce_run h hG
  have hi1 : Inv1 G h s' := inv1_of_reaches hG (inv1_init hG) hr
  have hlog : ∀ e ∈ s'.pushedLog, e.node ≠ G.goalNode := by
    intro e he hne
    obtain ⟨⟨p, hp, -⟩, -⟩ := hi1.hDlog e he
    exact hunreach ⟨p, by rw [← hne]; exact hp⟩
  cases hpm : popMin s'.openList with
  | none =>
    rw [stepA_of_none hpm] at hdone
    have hfs : s' = final := StepRes.done.inj hdone
    subst hfs
    refine ⟨?_, ?_, ?_⟩
    · rw [hfin]
      exact popMin_eq_none hpm
    · rw [hsearch]
      show costOrSentinel (s'.dist G.goalNode) = -1
      cases hdg : s'.dist G.goalNode with
      | top => rfl
      | coe c =>
        exfalso
        obtain ⟨p, hp, -⟩ := hi1.hE G.goalNode c hdg
        exact hunreach ⟨p, hp⟩
    · rw [hfin]
      exact hlog
  | some pr =>
    cases pr with
    | mk cur rest =>
      by_cases hst : s'.dist cur.node < (cur.g : WithTop ℚ)
      · rw [stepA_of_stale hpm hst] at hdone
        exact StepRes.noConfusion hdone
      · by_cases hgl : cur.node = G.goalNode
        · exact absurd hgl (hlog cur (hi1.hQL cur (popMin_mem hpm)))
        · rw [stepA_of_expand hpm hst hgl] at hdone
          exact StepRes.noConfusion hdone

/-! ## Counter monotonicity along the loop -/

theorem stepA_state_counters {G : GraphData} {h : ℕ → ℚ} (s : SearchState) :
    s.steps ≤ ((stepA G h s).state).steps ∧
    s.nodesExpanded ≤ ((stepA G h s).state).nodesExpanded := by
  cases hpm : popMin s.openList with
  | none => rw [stepA_of_none hpm]; exact ⟨le_refl _, le_refl _⟩
  | some pr =>
    cases pr with
    | mk cur rest =>
      by_cases hst : s.dist cur.node < (cur.g : WithTop ℚ)
      · rw [stepA_of_stale hpm hst]
        exact ⟨Nat.le_succ _, le_refl _⟩
      · by_cases hgl : cur.node = G.goalNode
        · rw [stepA_of_goal hpm hst hgl]
          exact ⟨Nat.le_succ _, Nat.le_succ _⟩
        · rw [stepA_of_expand hpm hst hgl]
          exact ⟨Nat.le_succ _, Nat.le_succ _⟩

theorem loopA_counters {G : GraphData} {h : ℕ → ℚ} :
    ∀ (n : ℕ) (s out : SearchState), loopA G h n s = some out →
      s.steps ≤ out.steps ∧ s.nodesExpanded ≤ out.nodesExpanded := by
  intro n
  induction n with
  | zero => intro s out hl; exact Option.noConfusion hl
  | succ n ih =>
    intro s out hl
    have hl' : (match stepA G h s with
        | .done s' => some s'
        | .cont s' => loopA G h n s') = some out := hl
    cases hs : stepA G h s with
    | done o =>
      rw [hs] at hl'
      have ho : o = out := Option.some_injective _ hl'
      have := stepA_state_counters (G := G) (h := h) s
      rw [hs] at this
      rw [ho] at this
      exact this
    | cont s' =>
      rw [hs] at hl'
      have h1 := stepA_state_counters (G := G) (h := h) s
      rw [hs] at h1
      have h2 := ih s' out hl'
      exact ⟨le_trans h1.1 h2.1, le_trans h1.2 h2.2⟩

/-! ## The claims -/

/-- C1: for every graph with non-negative edge weights, valid start/goal
indices and a consistent (hence admissible) heuristic — the Euclidean
heuristic of `main.cpp` being such — whenever the goal is reachable, the
`pathCost` produced by one execution of the search loop equals the
shortest-walk cost, i.e. the value computed by the reference Dijkstra
algorithm (the engine run with the zero heuristic). -/
theorem claim1_pathcost_matches_dijkstra (G : GraphData) (h : ℕ → ℚ)
    (hG : InRange G) (hgoal : G.goalNode < G.numNodes)
    (hw : NonnegWeights G) (hcons : ConsistentH G h)
    (hreach : ∃ p, IsWalk G G.startNode p G.goalNode) :
    (searchOnce G h).pathCost = (dijkstraRef G).pathCost ∧
      IsShortestCost G (searchOnce G h).pathCost := by
  have hcons0 : ConsistentH G (fun _ => 0) := by
    intro u hu pr hpr
    have := hw u hu pr hpr
    simpa using this
  have h1 := searchOnce_shortest hG hw hcons hreach
  have h2 := searchOnce_shortest hG hw hcons0 hreach
  exact ⟨IsShortestCost_unique h1 h2, h1⟩

/-- Single-node witness graph: one node, no edges, start = goal = 0. -/
def G1 : GraphData := ⟨1, fun _ => [], 0, 0⟩

theorem claim1_witness :
    InRange G1 ∧ NonnegWeights G1 ∧ ConsistentH G1 (fun _ => 0) ∧
      (∃ p, IsWalk G1 G1.startNode p G1.goalNode) ∧
      (searchOnce G1 (fun _ => 0)).pathCost = (dijkstraRef G1).pathCost := by
  have hG : InRange G1 :=
    ⟨Nat.one_pos, fun u _ pr hpr => absurd hpr (List.not_mem_nil pr)⟩
  have hw : NonnegWeights G1 := fun u _ pr hpr => absurd hpr (List.not_mem_nil pr)
  have hcons : ConsistentH G1 (fun _ => 0) :=
    fun u _ pr hpr => absurd hpr (List.not_mem_nil pr)
  have hreach : ∃ p, IsWalk G1 G1.startNode p G1.goalNode := ⟨[], rfl⟩
  exact ⟨hG, hw, hcons, hreach,
    (claim1_pathcost_matches_dijkstra G1 (fun _ => 0) hG Nat.one_pos hw hcons hreach).1⟩

/-- C2: for every finite graph with valid indices — any topology, cycles
included, no hypothesis on edge weights — the while loop exits on its own
(the fuel `fuelBound G` provably suffices, i.e. `loopA` returns `some`),
the total number of pushes onto the working set is at most
`1 + Σ_v degree(v)` (the `O(E)` bound: for a symmetric graph the sum is
`2·E`), and each node is expanded (popped non-stale) at most once: the
expansion log is duplicate-free, `nodesExpanded` is its length, and it
never exceeds `numNodes`. -/
theorem claim2_terminates_bounded (G : GraphData) (h : ℕ → ℚ)
    (hG : InRange G) (hgoal : G.goalNode < G.numNodes) :
    ∃ final, loopA G h (fuelBound G) (initState G h) = some final ∧
      finalState G h = final ∧
      final.pushedLog.length ≤
        1 + ((List.range G.numNodes).map (fun v => (G.adjacencyList v).length)).sum ∧
      final.expandedLog.Nodup ∧
      final.nodesExpanded = final.expandedLog.length ∧
      final.nodesExpanded ≤ G.numNodes := by
  obtain ⟨final, hloop, ⟨s', hr, hdone⟩, -, hfin⟩ := searchOnce_run h hG
  have hi1 : Inv1 G h s' := inv1_of_reaches hG (inv1_init hG) hr
  obtain ⟨hcount, hnodup, hrange, -, hpush, -, -⟩ := done_facts hi1 hdone
  refine ⟨final, hloop, hfin, ?_, hnodup, hcount, ?_⟩
  · calc final.pushedLog.length ≤
        1 + (final.expandedLog.map (fun v => (G.adjacencyList v).length)).sum := hpush
    _ ≤ 1 + ((List.range G.numNodes).map (fun v => (G.adjacencyList v).length)).sum :=
        Nat.add_le_add_left (nodup_map_sum_le _ hnodup hrange) 1
  · rw [hcount]
    exact nodup_length_le hnodup hrange

theorem claim2_witness :
    InRange G1 ∧ G1.goalNode < G1.numNodes ∧
      ∃ final, loopA G1 (fun _ => 0) (fuelBound G1) (initState G1 (fun _ => 0)) =
          some final ∧
        finalState G1 (fun _ => 0) = final ∧
        final.pushedLog.length ≤ 1 + ((List.range G1.numNodes).map
          (fun v => (G1.adjacencyList v).length)).sum ∧
        final.expandedLog.Nodup ∧
        final.nodesExpanded = final.expandedLog.length ∧
        final.nodesExpanded ≤ G1.numNodes := by
  have hG : InRange G1 :=
    ⟨Nat.one_pos, fun u _ pr hpr => absurd hpr (List.not_mem_nil pr)⟩
  exact ⟨hG, Nat.one_pos, claim2_terminates_bounded G1 (fun _ => 0) hG Nat.one_pos⟩

/-- C3: at every state the loop reaches, (a) `dist[v]` is exactly the
minimum `g` over all `(v, g, f)` entries ever pushed onto the working set
(`⊤` when none was); (b) popping a stale entry (`g` strictly above the
current `dist`) only removes it and counts the step — `dist`, `closed`,
`nodesExpanded` and both logs are untouched; (c) whatever the iteration
does, every entry it pushes targets a node that is closed neither before
nor after the iteration — a closed node is never pushed again. -/
theorem claim3_invariants (G : GraphData) (h : ℕ → ℚ) (hG : InRange G) :
    ∀ s, Reaches G h (initState G h) s →
      (∀ v, s.dist v = minPushed s.pushedLog v) ∧
      (∀ cur rest, popMin s.openList = some (cur, rest) →
        s.dist cur.node < (cur.g : WithTop ℚ) →
        stepA G h s = .cont { s with openList := rest, steps := s.steps + 1 }) ∧
      (∀ r, stepA G h s = r → ∃ news,
        (r.state).pushedLog = s.pushedLog ++ news ∧
        ∀ e ∈ news, s.closed e.node = false ∧ (r.state).closed e.node = false) := by
  intro s hr
  have hi : Inv1 G h s := inv1_of_reaches hG (inv1_init hG) hr
  refine ⟨hi.hM, ?_, ?_⟩
  · intro cur rest hp hst
    exact stepA_of_stale hp hst
  · intro r hstep
    cases hpm : popMin s.openList with
    | none =>
      rw [stepA_of_none hpm] at hstep
      subst hstep
      exact ⟨[], (List.append_nil _).symm, fun e he => absurd he (List.not_mem_nil e)⟩
    | some pr =>
      cases pr with
      | mk cur rest =>
        by_cases hst : s.dist cur.node < (cur.g : WithTop ℚ)
        · rw [stepA_of_stale hpm hst] at hstep
          subst hstep
          exact ⟨[], (List.append_nil _).symm, fun e he => absurd he (List.not_mem_nil e)⟩
        · by_cases hgl : cur.node = G.goalNode
          · rw [stepA_of_goal hpm hst hgl] at hstep
            subst hstep
            exact ⟨[], (List.append_nil _).symm, fun e he => absurd he (List.not_mem_nil e)⟩
          · rw [stepA_of_expand hpm hst hgl] at hstep
            subst hstep
            have rf := relaxAll_facts h
              (fun v => if v = cur.node then true else s.closed v)
              cur.g (G.adjacencyList cur.node) ⟨s.dist, rest, s.pushedLog⟩
            obtain ⟨news, -, hlog, -, hprops⟩ := rf.hnews
            refine ⟨news, hlog, ?_⟩
            intro e he
            obtain ⟨-, -, hecl⟩ := hprops e he
            constructor
            · by_cases hec : e.node = cur.node
              · rw [if_pos hec] at hecl
                exact Bool.noConfusion hecl
              · rwa [if_neg hec] at hecl
            · exact hecl

theorem claim3_witness :
    InRange G1 ∧ Reaches G1 (fun _ => 0) (initState G1 (fun _ => 0))
        (initState G1 (fun _ => 0)) ∧
      (∀ v, (initState G1 (fun _ => 0)).dist v =
        minPushed (initState G1 (fun _ => 0)).pushedLog v) := by
  have hG : InRange G1 :=
    ⟨Nat.one_pos, fun u _ pr hpr => absurd hpr (List.not_mem_nil pr)⟩
  have hre := Reaches.refl (G := G1) (h := fun _ => 0) (initState G1 (fun _ => 0))
  exact ⟨hG, hre, (claim3_invariants G1 (fun _ => 0) hG _ hre).1⟩

/-- C4: when no walk joins start and goal, the loop drains the working set
completely (it exits with an empty queue), no entry for the goal node is
ever pushed — in particular the goal is never expanded — and the returned
`pathCost` is the `-1` unreachable sentinel, produced by the normal
exit path rather than an error. -/
theorem claim4_unreachable_sentinel (G : GraphData) (h : ℕ → ℚ)
    (hG : InRange G) (hgoal : G.goalNode < G.numNodes)
    (hunreach : ¬ ∃ p, IsWalk G G.startNode p G.goalNode) :
    (finalState G h).openList = [] ∧ (searchOnce G h).pathCost = -1 ∧
      ∀ e ∈ (finalState G h).pushedLog, e.node ≠ G.goalNode :=
  searchOnce_unreachable_facts h hG hunreach

/-- Disconnected witness graph (spec §8 scenario): two nodes, no edges,
start 0, goal 1. -/
def G2 : GraphData := ⟨2, fun _ => [], 0, 1⟩

theorem claim4_witness :
    InRange G2 ∧ G2.goalNode < G2.numNodes ∧
      (¬ ∃ p, IsWalk G2 G2.startNode p G2.goalNode) ∧
      (finalState G2 (fun _ => 0)).openList = [] ∧
      (searchOnce G2 (fun _ => 0)).pathCost = -1 ∧
      ∀ e ∈ (finalState G2 (fun _ => 0)).pushedLog, e.node ≠ G2.goalNode := by
  have hG : InRange G2 :=
    ⟨Nat.zero_lt_two, fun u _ pr hpr => absurd hpr (List.not_mem_nil pr)⟩
  have hgoal : G2.goalNode < G2.numNodes := Nat.one_lt_two
  have hunreach : ¬ ∃ p, IsWalk G2 G2.startNode p G2.goalNode := by
    rintro ⟨p, hp⟩
    cases p with
    | nil => exact Nat.zero_ne_one hp
    | cons a t => exact absurd hp.1 (List.not_mem_nil a)
  obtain ⟨h1, h2, h3⟩ := claim4_unreachable_sentinel G2 (fun _ => 0) hG hgoal hunreach
  exact ⟨hG, hgoal, hunreach, h1, h2, h3⟩

/-- C5: when an entry for the goal node is popped non-stale from a state the
loop has reached, the iteration counts the step, increments `nodesExpanded`
(the goal counts as expanded, entering the expansion log), and returns
`done` — the loop terminates immediately with `closed`, `dist` and the push
log untouched: the goal is not marked closed (it was not closed before
either) and no neighbor is examined or pushed. -/
theorem claim5_goal_pop_stops (G : GraphData) (h : ℕ → ℚ) (s : SearchState)
    (cur : Entry) (rest : List Entry) (hG : InRange G)
    (hr : Reaches G h (initState G h) s)
    (hp : popMin s.openList = some (cur, rest))
    (hst : ¬ s.dist cur.node < (cur.g : WithTop ℚ))
    (hgl : cur.node = G.goalNode) :
    stepA G h s = .done { s with
      openList := rest
      steps := s.steps + 1
      nodesExpanded := s.nodesExpanded + 1
      expandedLog := s.expandedLog ++ [cur.node] } ∧
    s.closed G.goalNode = false :=
  ⟨stepA_of_goal hp hst hgl,
    (inv1_of_reaches hG (inv1_init hG) hr).hGoalOpen⟩

theorem claim5_witness :
    popMin (initState G1 (fun _ => 0)).openList = some (⟨0, 0, 0⟩, []) ∧
      (¬ (initState G1 (fun _ => 0)).dist (Entry.node ⟨0, 0, 0⟩) <
        ((Entry.g ⟨0, 0, 0⟩ : ℚ) : WithTop ℚ)) ∧
      stepA G1 (fun _ => 0) (initState G1 (fun _ => 0)) =
        .done { initState G1 (fun _ => 0) with
          openList := []
          steps := (initState G1 (fun _ => 0)).steps + 1
          nodesExpanded := (initState G1 (fun _ => 0)).nodesExpanded + 1
          expandedLog := (initState G1 (fun _ => 0)).expandedLog ++ [Entry.node ⟨0, 0, 0⟩] } ∧
      (initState G1 (fun _ => 0)).closed G1.goalNode = false := by
  have hG : InRange G1 :=
    ⟨Nat.one_pos, fun u _ pr hpr => absurd hpr (List.not_mem_nil pr)⟩
  have hp : popMin (initState G1 (fun _ => 0)).openList = some (⟨0, 0, 0⟩, []) := rfl
  have hst : ¬ (initState G1 (fun _ => 0)).dist (Entry.node ⟨0, 0, 0⟩) <
      ((Entry.g ⟨0, 0, 0⟩ : ℚ) : WithTop ℚ) := by
    intro hlt
    exact lt_irrefl _ hlt
  have hgl : Entry.node ⟨0, 0, 0⟩ = G1.goalNode := rfl
  obtain ⟨h1, h2⟩ := claim5_goal_pop_stops G1 (fun _ => 0) (initState G1 (fun _ => 0))
    ⟨0, 0, 0⟩ [] hG (Reaches.refl _) hp hst hgl
  exact ⟨hp, hst, h1, h2⟩

/-- C6: `steps` counts every removal from the working set including stale
ones (at every reached state, removals-so-far = pushes-so-far minus the
queue's current size, and a stale pop adds one step while leaving
`nodesExpanded` and the expansion log unchanged); `nodesExpanded` counts
exactly the non-stale removals (it equals the length of the duplicate-free
expansion log, so each non-stale removal is of a distinct node); hence the
returned metrics satisfy `nodesExpanded ≤ steps` and
`nodesExpanded ≤ numNodes`. -/
theorem claim6_counter_accounting (G : GraphData) (h : ℕ → ℚ)
    (hG : InRange G) :
    (searchOnce G h).nodesExpanded ≤ (searchOnce G h).steps ∧
    (searchOnce G h).nodesExpanded ≤ G.numNodes ∧
    ∀ s, Reaches G h (initState G h) s →
      (s.openList.length + s.steps = s.pushedLog.length ∧
        s.nodesExpanded = s.expandedLog.length ∧ s.expandedLog.Nodup) ∧
      ∀ cur rest, popMin s.openList = some (cur, rest) →
        s.dist cur.node < (cur.g : WithTop ℚ) →
        ∃ s', stepA G h s = .cont s' ∧ s'.nodesExpanded = s.nodesExpanded ∧
          s'.steps = s.steps + 1 ∧ s'.expandedLog = s.expandedLog := by
  obtain ⟨final, hloop, ⟨s', hr, hdone⟩, hsearch, -⟩ := searchOnce_run h hG
  have hi1 : Inv1 G h s' := inv1_of_reaches hG (inv1_init hG) hr
  obtain ⟨hcount, hnodup, hrange, hsle, -, -, -⟩ := done_facts hi1 hdone
  refine ⟨?_, ?_, ?_⟩
  · rw [hsearch]
    exact hsle
  · rw [hsearch]
    show final.nodesExpanded ≤ G.numNodes
    rw [hcount]
    exact nodup_length_le hnodup hrange
  · intro s hrs
    have hi : Inv1 G h s := inv1_of_reaches hG (inv1_init hG) hrs
    refine ⟨⟨hi.hPop, hi.hCount, hi.hNodup⟩, ?_⟩
    intro cur rest hp hst
    exact ⟨_, stepA_of_stale hp hst, rfl, rfl, rfl⟩

theorem claim6_witness :
    InRange G1 ∧
      (searchOnce G1 (fun _ => 0)).nodesExpanded ≤ (searchOnce G1 (fun _ => 0)).steps ∧
      (searchOnce G1 (fun _ => 0)).nodesExpanded ≤ G1.numNodes := by
  have hG : InRange G1 :=
    ⟨Nat.one_pos, fun u _ pr hpr => absurd hpr (List.not_mem_nil pr)⟩
  obtain ⟨h1, h2, -⟩ := claim6_counter_accounting G1 (fun _ => 0) hG
  exact ⟨hG, h1, h2⟩

/-- C7: the search is deterministic — it is a pure function of its inputs,
so all of the harness's `runs` executions on the same graph and heuristic
produce the same result record: every position of the per-run results list
holds exactly `searchOnce G h`, hence any two runs agree on `pathCost`,
`nodesExpanded` and `steps`. -/
theorem claim7_deterministic (G : GraphData) (h : ℕ → ℚ) (runs i j : ℕ)
    (hi : i < runs) (hj : j < runs) :
    (benchRuns G h runs).get? i = some (searchOnce G h) ∧
    (benchRuns G h runs).get? i = (benchRuns G h runs).get? j := by
  have key : ∀ k, k < runs →
      (benchRuns G h runs).get? k = some (searchOnce G h) := by
    intro k hk
    unfold benchRuns
    rw [List.get?_map, List.get?_range hk]
    rfl
  exact ⟨key i hi, (key i hi).trans (key j hj).symm⟩

theorem claim7_witness :
    (benchRuns G1 (fun _ => 0) 2).get? 0 = some (searchOnce G1 (fun _ => 0)) ∧
    (benchRuns G1 (fun _ => 0) 2).get? 0 = (benchRuns G1 (fun _ => 0) 2).get? 1 :=
  claim7_deterministic G1 (fun _ => 0) 2 0 1 Nat.zero_lt_two Nat.one_lt_two

/-- What the benchmark accumulator holds after `runs` iterations: the
totals are `runs` times the (deterministic) per-run metrics, and
`pathCost` is the value captured from run 0 (or the 0 initializer when no
run happened). -/
theorem benchAcc_spec (G : GraphData) (h : ℕ → ℚ) (timeOf : ℕ → ℕ) :
    ∀ runs : ℕ,
      ((List.range runs).foldl (benchStep G h timeOf)
          ⟨0, 0, 0, 0⟩).totalNodesExpanded =
        runs * (searchOnce G h).nodesExpanded ∧
      ((List.range runs).foldl (benchStep G h timeOf) ⟨0, 0, 0, 0⟩).totalSteps =
        runs * (searchOnce G h).steps ∧
      ((List.range runs).foldl (benchStep G h timeOf) ⟨0, 0, 0, 0⟩).pathCost =
        if runs = 0 then 0 else (searchOnce G h).pathCost := by
  intro runs
  induction runs with
  | zero => exact ⟨by simp, by simp, rfl⟩
  | succ n ih =>
    obtain ⟨ih1, ih2, ih3⟩ := ih
    rw [List.range_succ, List.foldl_append]
    refine ⟨?_, ?_, ?_⟩
    · show ((List.range n).foldl (benchStep G h timeOf)
          ⟨0, 0, 0, 0⟩).totalNodesExpanded + (searchOnce G h).nodesExpanded = _
      rw [ih1]
      ring
    · show ((List.range n).foldl (benchStep G h timeOf)
          ⟨0, 0, 0, 0⟩).totalSteps + (searchOnce G h).steps = _
      rw [ih2]
      ring
    · show (if n = 0 then (searchOnce G h).pathCost
          else ((List.range n).foldl (benchStep G h timeOf) ⟨0, 0, 0, 0⟩).pathCost) = _
      by_cases hn : n = 0
      · rw [if_pos hn, if_neg (Nat.succ_ne_zero n)]
      · rw [if_neg hn, ih3, if_neg hn, if_neg (Nat.succ_ne_zero n)]

/-- C8: the harness performs the search exactly `runs` times (run count a
parameter, `NUM_RUNS = 100` in `main.cpp`), captures `pathCost` from the
first run only, and reports `avgNodesExpanded`, `avgSteps` and `avgTimeNs`
as the accumulated totals divided by the run count. -/
theorem claim8_harness_aggregation (G : GraphData) (h : ℕ → ℚ)
    (timeOf : ℕ → ℕ) (runs : ℕ) (hruns : 1 ≤ runs) :
    (benchRuns G h runs).length = runs ∧
    (runAStar G h timeOf runs).pathCost = (searchOnce G h).pathCost ∧
    (runAStar G h timeOf runs).totalNodesExpanded =
      runs * (searchOnce G h).nodesExpanded ∧
    (runAStar G h timeOf runs).totalSteps = runs * (searchOnce G h).steps ∧
    (runAStar G h timeOf runs).avgNodesExpanded =
      ((runAStar G h timeOf runs).totalNodesExpanded : ℚ) / runs ∧
    (runAStar G h timeOf runs).avgSteps =
      ((runAStar G h timeOf runs).totalSteps : ℚ) / runs ∧
    (runAStar G h timeOf runs).avgTimeNs =
      (runAStar G h timeOf runs).totalNanoseconds / runs ∧
    NUM_RUNS = 100 := by
  obtain ⟨h1, h2, h3⟩ := benchAcc_spec G h timeOf runs
  refine ⟨?_, ?_, ?_, ?_, rfl, rfl, rfl, rfl⟩
  · unfold benchRuns
    rw [List.length_map, List.length_range]
  · show ((List.range runs).foldl (benchStep G h timeOf) ⟨0, 0, 0, 0⟩).pathCost = _
    rw [h3, if_neg (by omega)]
  · show ((List.range runs).foldl (benchStep G h timeOf)
        ⟨0, 0, 0, 0⟩).totalNodesExpanded = _
    exact h1
  · show ((List.range runs).foldl (benchStep G h timeOf) ⟨0, 0, 0, 0⟩).totalSteps = _
    exact h2

theorem claim8_witness :
    1 ≤ NUM_RUNS ∧
      (benchRuns G1 (fun _ => 0) NUM_RUNS).length = NUM_RUNS ∧
      (runAStar G1 (fun _ => 0) (fun _ => 0) NUM_RUNS).pathCost =
        (searchOnce G1 (fun _ => 0)).pathCost ∧
      (runAStar G1 (fun _ => 0) (fun _ => 0) NUM_RUNS).avgNodesExpanded =
        ((runAStar G1 (fun _ => 0) (fun _ => 0) NUM_RUNS).totalNodesExpanded : ℚ) /
          NUM_RUNS := by
  have hruns : 1 ≤ NUM_RUNS := by norm_num [NUM_RUNS]
  obtain ⟨a1, a2, -, -, a5, -, -, -⟩ :=
    claim8_harness_aggregation G1 (fun _ => 0) (fun _ => 0) NUM_RUNS hruns
  exact ⟨hruns, a1, a2, a5⟩

/-- C9: the figure the harness prints as "Min execution time" is the
accumulated time divided by `runs · 10⁶`, which is algebraically the
average (the printed average-milliseconds figure), not a minimum over
runs. -/
theorem claim9_min_time_is_average (G : GraphData) (h : ℕ → ℚ)
    (timeOf : ℕ → ℕ) (runs : ℕ) :
    (runAStar G h timeOf runs).minTimeMs =
      (runAStar G h timeOf runs).avgTimeNs / 1000000 ∧
    (runAStar G h timeOf runs).minTimeMs = (runAStar G h timeOf runs).avgTimeMs := by
  constructor
  · show ((List.range runs).foldl (benchStep G h timeOf)
        ⟨0, 0, 0, 0⟩).totalNanoseconds / (runs * 1000000) =
      (((List.range runs).foldl (benchStep G h timeOf)
        ⟨0, 0, 0, 0⟩).totalNanoseconds / runs) / 1000000
    rw [div_div]
  · show ((List.range runs).foldl (benchStep G h timeOf)
        ⟨0, 0, 0, 0⟩).totalNanoseconds / (runs * 1000000) =
      (((List.range runs).foldl (benchStep G h timeOf)
        ⟨0, 0, 0, 0⟩).totalNanoseconds / runs) / 1000000
    rw [div_div]

/-- C10: with valid indices, the first pop of every search is the single
initial entry — the start node with `g = 0` — and it is never stale
(`dist[start] = 0` is not `< 0`); consequently every search, reachable goal
or not, finishes with `nodesExpanded ≥ 1` and `steps ≥ 1`. -/
theorem claim10_first_pop (G : GraphData) (h : ℕ → ℚ)
    (hG : InRange G) (hgoal : G.goalNode < G.numNodes) :
    popMin (initState G h).openList =
      some (⟨G.startNode, 0, h G.startNode⟩, []) ∧
    ¬ (initState G h).dist G.startNode < ((0 : ℚ) : WithTop ℚ) ∧
    1 ≤ (searchOnce G h).nodesExpanded ∧ 1 ≤ (searchOnce G h).steps := by
  have hd0 : (initState G h).dist G.startNode = ((0 : ℚ) : WithTop ℚ) := by
    show (if G.startNode = G.startNode then ((0 : ℚ) : WithTop ℚ) else ⊤) = _
    rw [if_pos rfl]
  have hst : ¬ (initState G h).dist G.startNode < ((0 : ℚ) : WithTop ℚ) := by
    rw [hd0]
    exact lt_irrefl _
  obtain ⟨final, hloop, -, hsearch, -⟩ := searchOnce_run h hG
  have hcounters : 1 ≤ final.nodesExpanded ∧ 1 ≤ final.steps := by
    have hfb : 2 ≤ fuelBound G := Nat.le_add_right 2 _
    cases hfbe : fuelBound G with
    | zero => omega
    | succ n =>
      rw [hfbe] at hloop
      have hl' : (match stepA G h (initState G h) with
          | .done s' => some s'
          | .cont s' => loopA G h n s') = some final := hloop
      have hp : popMin (initState G h).openList =
          some (⟨G.startNode, 0, h G.startNode⟩, []) := rfl
      by_cases hgl : Entry.node ⟨G.startNode, 0, h G.startNode⟩ = G.goalNode
      · rw [stepA_of_goal hp hst hgl] at hl'
        have := Option.some_injective _ hl'
        rw [← this]
        exact ⟨Nat.le_refl 1, Nat.le_refl 1⟩
      · rw [stepA_of_expand hp hst hgl] at hl'
        have := loopA_counters n _ final hl'
        exact ⟨this.2, this.1⟩
  rw [hsearch]
  exact ⟨rfl, hst, hcounters.1, hcounters.2⟩

theorem claim10_witness :
    InRange G2 ∧ G2.goalNode < G2.numNodes ∧
      (¬ ∃ p, IsWalk G2 G2.startNode p G2.goalNode) ∧
      popMin (initState G2 (fun _ => 0)).openList =
        some (⟨G2.startNode, 0, 0⟩, []) ∧
      1 ≤ (searchOnce G2 (fun _ => 0)).nodesExpanded ∧
      1 ≤ (searchOnce G2 (fun _ => 0)).steps := by
  have hG : InRange G2 :=
    ⟨Nat.zero_lt_two, fun u _ pr hpr => absurd hpr (List.not_mem_nil pr)⟩
  have hunreach : ¬ ∃ p, IsWalk G2 G2.startNode p G2.goalNode := by
    rintro ⟨p, hp⟩
    cases p with
    | nil => exact Nat.zero_ne_one hp
    | cons a t => exact absurd hp.1 (List.not_mem_nil a)
  obtain ⟨w1, -, w3, w4⟩ :=
    claim10_first_pop G2 (fun _ => 0) hG Nat.one_lt_two
  exact ⟨hG, Nat.one_lt_two, hunreach, w1, w3, w4⟩
